import Mathlib

/-!
# Verification of the lazyobsidian TUI layout engine

A shallow embedding of the constraint-based layout and text-compositing core
(`internal/ui/layout`): escape-sequence-aware width/truncate/fit primitives,
the screen compositor, the `calcSizes` space-distribution algorithm, the
recursive `ArrangeWindows` rectangle arrangement, and the `Panel`/`Frame`
renderers.

Modelling conventions:
* A Go string is modelled as the sequence of runes that `for _, r := range s`
  yields: `GoStr := List Char`.
* Go `int` is modelled as `Int`; Go's `/` and `%` (which truncate toward
  zero) are modelled by `Int.tdiv` / `Int.tmod`.
* `strings.Repeat(" ", n)` panics for `n < 0` in Go; it is modelled with
  `Int.toNat`, which agrees with Go for every `n ≥ 0` (all uses below).
-/

namespace LazyObsidian

/-- A Go string, viewed as the sequence of runes that `range` iterates. -/
abbrev GoStr := List Char

/-- The ANSI escape character `'\x1b'`. -/
def escChar : Char := '\x1b'

/-- Go's `(r >= 'a' && r <= 'z') || (r >= 'A' && r <= 'Z')` test that the
repository's scanners use to find the final byte of an escape sequence. -/
def isAsciiLetter (c : Char) : Bool :=
  (decide ('a' ≤ c) && decide (c ≤ 'z')) || (decide ('A' ≤ c) && decide (c ≤ 'Z'))

/-- `RuneWidth` — display width of a rune (`screen.go`): 2 for the listed
East-Asian-wide and pictograph ranges, 1 otherwise. -/
def RuneWidth (r : Char) : Int :=
  let n := r.toNat
  if 0x1100 ≤ n ∧
      (n ≤ 0x115f ∨ n = 0x2329 ∨ n = 0x232a ∨
        (0x2e80 ≤ n ∧ n ≤ 0xa4cf ∧ n ≠ 0x303f) ∨
        (0xac00 ≤ n ∧ n ≤ 0xd7a3) ∨
        (0xf900 ≤ n ∧ n ≤ 0xfaff) ∨
        (0xfe10 ≤ n ∧ n ≤ 0xfe19) ∨
        (0xfe30 ≤ n ∧ n ≤ 0xfe6f) ∨
        (0xff00 ≤ n ∧ n ≤ 0xff60) ∨
        (0xffe0 ≤ n ∧ n ≤ 0xffe6) ∨
        (0x20000 ≤ n ∧ n ≤ 0x2fffd) ∨
        (0x30000 ≤ n ∧ n ≤ 0x3fffd)) then 2
  else if 0x1F300 ≤ n ∧ n ≤ 0x1F9FF then 2
  else 1

/-- Modelled from the spec: the display width scanner underlying
`lipgloss.Width`, which the repository imports but does not contain.
Per spec §3, a string's display width is "the sum over its non-escape code
points" of the per-rune width, and per §4.1 the escape scanner recognizes a
sequence by its starting delimiter and ends it at the first alphabetic byte
— exactly the state machine the repository's own scanners
(`TruncateToWidth`, `extractFromPosition`, `stripAnsi`) implement, with
which §4.1 requires the width to be "byte-for-byte consistent".
`inEscape` is the scanner state; runes seen in escape state count 0. -/
def lipglossWidthAux : GoStr → Bool → Int
  | [], _ => 0
  | c :: cs, inEscape =>
    if c = escChar then lipglossWidthAux cs true
    else if inEscape then lipglossWidthAux cs (!(isAsciiLetter c))
    else RuneWidth c + lipglossWidthAux cs false

/-- Modelled from the spec: `lipgloss.Width s` — display width of a styled
string (spec §3, §4.2 `width(s)`). -/
def lipglossWidth (s : GoStr) : Int :=
  lipglossWidthAux s false

/-- The scanner state after reading `s` starting in state `inEscape`
(`true` = inside an escape sequence). -/
def escStateAfter : GoStr → Bool → Bool
  | [], inEscape => inEscape
  | c :: cs, inEscape =>
    if c = escChar then escStateAfter cs true
    else if inEscape then escStateAfter cs (!(isAsciiLetter c))
    else escStateAfter cs false

/-- Go `strings.Contains(hay, needle)` on rune sequences. -/
def containsSeq (needle : GoStr) : GoStr → Bool
  | [] => needle.isPrefixOf []
  | c :: cs => needle.isPrefixOf (c :: cs) || containsSeq needle cs

/-- The ANSI reset sequence `"\x1b[0m"` appended by `TruncateToWidth`. -/
def resetSeq : GoStr := [escChar, '[', '0', 'm']

/-- The escape-sequence opener `"\x1b["` that `TruncateToWidth` searches for. -/
def escOpen : GoStr := [escChar, '[']

/-- The rune loop of `TruncateToWidth` (`screen.go`): walks the string with
accumulated text width `w`, passing complete escape sequences through
verbatim (a partial `escapeSeq` is dropped if the string ends, and reset
when a new `'\x1b'` arrives), and stops before the first text rune whose
width would push the total past `maxWidth`. -/
def truncLoop : GoStr → Int → Int → Bool → GoStr → GoStr
  | [], _, _, _, _ => []
  | c :: cs, maxWidth, w, inEscape, escapeSeq =>
    if c = escChar then truncLoop cs maxWidth w true [escChar]
    else if inEscape then
      if isAsciiLetter c then
        (escapeSeq ++ [c]) ++ truncLoop cs maxWidth w false []
      else truncLoop cs maxWidth w true (escapeSeq ++ [c])
    else
      if w + RuneWidth c > maxWidth then []
      else c :: truncLoop cs maxWidth (w + RuneWidth c) false escapeSeq

/-- `TruncateToWidth` (`screen.go`): truncate a styled string to at most
`maxWidth` display cells, then append a reset sequence if styled text was
emitted without a trailing reset. -/
def TruncateToWidth (s : GoStr) (maxWidth : Int) : GoStr :=
  if maxWidth ≤ 0 then []
  else if lipglossWidth s ≤ maxWidth then s
  else
    let resultStr := truncLoop s maxWidth 0 false []
    if containsSeq escOpen resultStr && !(resetSeq.isSuffixOf resultStr) then
      resultStr ++ resetSeq
    else resultStr

/-- `FitToWidth` (`screen.go`): truncate if too long, pad with spaces if too
short; empty for `width ≤ 0`. -/
def FitToWidth (s : GoStr) (width : Int) : GoStr :=
  if width ≤ 0 then []
  else
    let currentWidth := lipglossWidth s
    if currentWidth = width then s
    else if currentWidth > width then TruncateToWidth s width
    else s ++ List.replicate (width - currentWidth).toNat ' '

/-- `TruncateWithEllipsis` (`screen.go`). -/
def TruncateWithEllipsis (s : GoStr) (maxWidth : Int) : GoStr :=
  if maxWidth ≤ 0 then []
  else if lipglossWidth s ≤ maxWidth then s
  else if maxWidth ≤ 1 then ['…']
  else TruncateToWidth s (maxWidth - 1) ++ ['…']

/-- The rune loop of `extractFromPosition` (`screen.go`): `pos` is the
visual position reached in the source, `collectedWidth` the width collected
so far; escape runes are emitted only once `collecting` is set; the loop
stops before a rune that would exceed `maxWidth` and pads with spaces up to
`maxWidth` (the padding that Go performs after the loop). -/
def extractLoop : GoStr → Int → Int → Int → Int → Bool → Bool → GoStr
  | [], _, maxWidth, _, collectedWidth, _, _ =>
    List.replicate (maxWidth - collectedWidth).toNat ' '
  | c :: cs, start, maxWidth, pos, collectedWidth, inEscape, collecting =>
    if c = escChar then
      (if collecting then [c] else []) ++
        extractLoop cs start maxWidth pos collectedWidth true collecting
    else if inEscape then
      (if collecting then [c] else []) ++
        extractLoop cs start maxWidth pos collectedWidth (!(isAsciiLetter c)) collecting
    else
      let charWidth := RuneWidth c
      let collecting1 := collecting || decide (start ≤ pos)
      if collecting1 then
        if collectedWidth + charWidth > maxWidth then
          List.replicate (maxWidth - collectedWidth).toNat ' '
        else
          c :: extractLoop cs start maxWidth (pos + charWidth)
            (collectedWidth + charWidth) false collecting1
      else extractLoop cs start maxWidth (pos + charWidth) collectedWidth false collecting1

/-- `extractFromPosition` (`screen.go`): escape-aware substring by visual
column, padded with spaces to exactly `maxWidth` cells of text. -/
def extractFromPosition (s : GoStr) (start maxWidth : Int) : GoStr :=
  if start < 0 ∨ maxWidth ≤ 0 then []
  else if lipglossWidth s ≤ start then List.replicate maxWidth.toNat ' '
  else extractLoop s start maxWidth 0 0 false false

/-- `composeLine` (`screen.go`): overlay `content` onto `existing` at visual
column `x`, then force the result through `FitToWidth`. -/
def composeLine (existing : GoStr) (x : Int) (content : GoStr) (totalWidth : Int) : GoStr :=
  let contentWidth := lipglossWidth content
  if x = 0 ∧ totalWidth ≤ contentWidth then FitToWidth content totalWidth
  else
    let before : GoStr :=
      if 0 < x then
        let existingWidth := lipglossWidth existing
        if x ≤ existingWidth then TruncateToWidth existing x
        else existing ++ List.replicate (x - existingWidth).toNat ' '
      else []
    let afterX := x + contentWidth
    let afterPart : GoStr :=
      if afterX < totalWidth then extractFromPosition existing afterX (totalWidth - afterX)
      else []
    FitToWidth (before ++ content ++ afterPart) totalWidth

/-- `Screen` (`screen.go`): a terminal buffer of styled lines. -/
structure Screen where
  width : Int
  height : Int
  lines : List GoStr
  deriving Repr, DecidableEq

/-- `NewScreen` (`screen.go`): `height` lines of `width` spaces.
(Go panics for negative dimensions — `strings.Repeat`/`make` — so the
`Int.toNat` clamping is only exercised at dimensions where Go returns.) -/
def NewScreen (width height : Int) : Screen :=
  ⟨width, height, List.replicate height.toNat (List.replicate width.toNat ' ')⟩

/-- `Screen.Clear` (`screen.go`). -/
def Screen.clear (s : Screen) : Screen :=
  { s with lines := s.lines.map fun _ => List.replicate s.width.toNat ' ' }

/-- Go `strings.Split(s, "\n")`: the maximal runs between newlines; the
empty string yields one empty field. -/
def splitOnNl : GoStr → List GoStr
  | [] => [[]]
  | c :: cs =>
    let r := splitOnNl cs
    if c = '\n' then [] :: r
    else (c :: r.headD []) :: r.tail

/-- `Screen.SetLine` (`screen.go`): out-of-range rows are ignored. -/
def Screen.setLine (s : Screen) (row : Int) (content : GoStr) : Screen :=
  if row < 0 ∨ s.height ≤ row then s
  else { s with lines := s.lines.set row.toNat (FitToWidth content s.width) }

/-- One iteration of the `Screen.DrawBlock` loop (`screen.go`): draw a
single line at row `row`; fast path when `x == 0` and the line already has
the buffer width, otherwise compose with the existing row content. -/
def Screen.drawLineAt (s : Screen) (x row : Int) (line : GoStr) : Screen :=
  if row < 0 ∨ s.height ≤ row then s
  else if x = 0 ∧ lipglossWidth line = s.width then
    { s with lines := s.lines.set row.toNat line }
  else
    { s with
      lines := s.lines.set row.toNat
        (composeLine (s.lines.getD row.toNat []) x line s.width) }

/-- The `for i, line := range contentLines` loop of `Screen.DrawBlock`. -/
def Screen.drawLinesFrom (s : Screen) (x y : Int) : List GoStr → Screen
  | [] => s
  | l :: ls => (s.drawLineAt x y l).drawLinesFrom x (y + 1) ls

/-- `Screen.DrawBlock` (`screen.go`): split on newlines and draw each line. -/
def Screen.drawBlock (s : Screen) (x y : Int) (content : GoStr) : Screen :=
  s.drawLinesFrom x y (splitOnNl content)

/-- `Screen.String` (`screen.go`): join the lines with newlines. -/
def Screen.serialize (s : Screen) : GoStr :=
  List.intercalate ['\n'] s.lines

/-- Go's `/` on `int` truncates toward zero. -/
def goDiv (a b : Int) : Int := Int.tdiv a b

/-- Go's `%` on `int` (remainder with the dividend's sign). -/
def goMod (a b : Int) : Int := Int.tmod a b

/-- `Direction` (`layout.go`): `Row` stacks children vertically, `Column`
horizontally. -/
inductive Direction where
  | row
  | column
  deriving Repr, DecidableEq

/-- `Box` (`layout.go`): a node of the layout constraint tree.
The Go struct's `ConditionalChildren` / `ConditionalDirection` hooks
(arbitrary Go callbacks, `nil` in every configuration the verified claims
concern) are modelled as permanently `nil`: `getChildren` and `getDirection`
below are their `nil` branches. -/
inductive Box where
  | mk (direction : Direction) (children : List Box) (window : String)
       (size : Int) (weight : Int)
  deriving Repr

/-- Field accessor for `Box.Direction`. -/
def Box.direction : Box → Direction
  | .mk d _ _ _ _ => d

/-- Field accessor for `Box.Children`. -/
def Box.children : Box → List Box
  | .mk _ c _ _ _ => c

/-- Field accessor for `Box.Window`. -/
def Box.window : Box → String
  | .mk _ _ w _ _ => w

/-- Field accessor for `Box.Size`. -/
def Box.size : Box → Int
  | .mk _ _ _ s _ => s

/-- Field accessor for `Box.Weight`. -/
def Box.weight : Box → Int
  | .mk _ _ _ _ w => w

/-- `Box.getChildren` (`layout.go`) with `ConditionalChildren == nil`. -/
def Box.getChildren (b : Box) : List Box := b.children

/-- `Box.getDirection` (`layout.go`) with `ConditionalDirection == nil`. -/
def Box.getDirection (b : Box) : Direction := b.direction

/-- The effective weight of a dynamically sized box: `calcSizes` defaults a
weight `≤ 0` to 1. -/
def effWeight (b : Box) : Int :=
  if b.weight ≤ 0 then 1 else b.weight

/-- The first pass of `calcSizes` (`layout.go`): boxes with `Size > 0` are
clamped to the space left (`min(box.Size, availableSpace-reservedSpace)`),
the rest keep the zero-initialized size and contribute their effective
weight. Returns the sizes so far, the final `reservedSpace`, and
`totalWeight`. -/
def calcPass1 : List Box → Int → Int → List Int × Int × Int
  | [], _, reserved => ([], reserved, 0)
  | b :: rest, avail, reserved =>
    if 0 < b.size then
      let s := min b.size (avail - reserved)
      let r := calcPass1 rest avail (reserved + s)
      (s :: r.1, r.2)
    else
      let r := calcPass1 rest avail reserved
      (0 :: r.1, r.2.1, r.2.2 + effWeight b)

/-- The second pass of `calcSizes` (`layout.go`): every dynamically sized
box gets `unitSize * weight` plus `min(weight, extraSpace)` from the
shrinking `extraSpace` pool; fixed-size boxes keep their pass-1 size. -/
def calcPass2 : List Box → List Int → Int → Int → List Int
  | b :: rest, s :: ss, unitSize, extraSpace =>
    if b.size ≤ 0 then
      let w := effWeight b
      let extra := if 0 < extraSpace then min w extraSpace else 0
      (unitSize * w + extra) :: calcPass2 rest ss unitSize (extraSpace - extra)
    else s :: calcPass2 rest ss unitSize extraSpace
  | _, _, _, _ => []

/-- `calcSizes` (`layout.go`): distribute `availableSpace` over fixed and
weighted boxes. -/
def calcSizes (boxes : List Box) (availableSpace : Int) : List Int :=
  match boxes with
  | [] => []
  | _ :: _ =>
    let p := calcPass1 boxes availableSpace 0
    let remainingSpace := availableSpace - p.2.1
    if 0 < p.2.2 ∧ 0 < remainingSpace then
      calcPass2 boxes p.1 (goDiv remainingSpace p.2.2) (goMod remainingSpace p.2.2)
    else p.1

/-- Specification helper: the `totalWeight` that `calcSizes` accumulates —
the sum of effective weights of the dynamically sized boxes. -/
def weightSum : List Box → Int
  | [] => 0
  | b :: rest => (if b.size ≤ 0 then effWeight b else 0) + weightSum rest

/-- Specification helper: the `reservedSpace` after the first pass of
`calcSizes`. -/
def reservedSpace (boxes : List Box) (avail : Int) : Int :=
  (calcPass1 boxes avail 0).2.1

/-- Specification helper: the total effective weight of the dynamically
sized boxes strictly before index `i` — how much of the `extraSpace` pool
the earlier boxes can have consumed. -/
def prefixWeightSum (boxes : List Box) (i : Nat) : Int :=
  weightSum (boxes.take i)

/-- `Dimensions` (`layout.go`): inclusive rectangle bounds. -/
structure Dimensions where
  x0 : Int
  y0 : Int
  x1 : Int
  y1 : Int
  deriving Repr, DecidableEq

/-- A Go `map[string]Dimensions`, as the lookup function it denotes. -/
abbrev NameMap := String → Option Dimensions

/-- The empty `map[string]Dimensions`. -/
def NameMap.empty : NameMap := fun _ => none

/-- `result[k] = v` over a whole child map: entries of `m2` overwrite those
of `m1`, which is what the `for k, v := range childResult` merge loop of
`ArrangeWindows` does. -/
def NameMap.merge (m1 m2 : NameMap) : NameMap :=
  fun k => match m2 k with
    | some v => some v
    | none => m1 k

mutual

/-- `ArrangeWindows` (`layout.go`) restricted to a non-`nil` root (Go
returns `nil` for a `nil` root): a leaf (non-empty `Window`) maps its name
to the rectangle; an internal node distributes the primary-axis extent with
`calcSizes` and recursively arranges each child with a positive size,
advancing `offset`; children with size `≤ 0` are skipped. `arrangeChildren`
is the `for i, child := range children` loop. -/
def ArrangeWindows : Box → Int → Int → Int → Int → NameMap
  | Box.mk direction children window _ _, x0, y0, width, height =>
    if window ≠ "" then
      fun k =>
        if k = window then
          some ⟨x0, y0, x0 + width - 1, y0 + height - 1⟩
        else none
    else
      match children with
      | [] => NameMap.empty
      | c :: cs =>
        let availableSize := if direction = Direction.column then width else height
        let sizes := calcSizes (c :: cs) availableSize
        arrangeChildren (c :: cs) sizes direction x0 y0 width height 0 NameMap.empty

/-- The child loop of `ArrangeWindows`: `acc` is the `result` map built so
far, `offset` the accumulated offset along the primary axis. (Go indexes
`sizes[i]`, which always exists because `calcSizes` returns one size per
child; a missing size ends the loop here.) -/
def arrangeChildren : List Box → List Int → Direction → Int → Int → Int → Int → Int → NameMap → NameMap
  | [], _, _, _, _, _, _, _, acc => acc
  | _ :: _, [], _, _, _, _, _, _, acc => acc
  | child :: rest, boxSize :: ss, direction, x0, y0, width, height, offset, acc =>
    if boxSize ≤ 0 then
      arrangeChildren rest ss direction x0 y0 width height offset acc
    else
      let childResult :=
        match direction with
        | .column => ArrangeWindows child (x0 + offset) y0 boxSize height
        | .row => ArrangeWindows child x0 (y0 + offset) width boxSize
      arrangeChildren rest ss direction x0 y0 width height (offset + boxSize)
        (acc.merge childResult)

end

mutual

/-- Specification helper: the window names a box tree can ever emit — a
non-empty `Window` makes the node a leaf (as in `ArrangeWindows`),
otherwise the names of the children's trees. -/
def treeWindows : Box → List String
  | Box.mk _ children window _ _ =>
    if window ≠ "" then [window] else treeWindowsList children

/-- Specification helper: the window names of a forest of boxes. -/
def treeWindowsList : List Box → List String
  | [] => []
  | c :: cs => treeWindows c ++ treeWindowsList cs

end

/-- `BorderStyle` (`panel.go`). -/
inductive BorderStyle where
  | none
  | single
  | double
  | rounded
  | hidden
  deriving Repr, DecidableEq

/-- `BorderChars` (`panel.go`). -/
structure BorderChars where
  horizontal : Char
  vertical : Char
  topLeft : Char
  topRight : Char
  bottomLeft : Char
  bottomRight : Char
  deriving Repr, DecidableEq

/-- `GetBorderChars` (`panel.go`). -/
def GetBorderChars : BorderStyle → BorderChars
  | .single => ⟨'─', '│', '┌', '┐', '└', '┘'⟩
  | .double => ⟨'═', '║', '╔', '╗', '╚', '╝'⟩
  | .rounded => ⟨'─', '│', '╭', '╮', '╰', '╯'⟩
  | .hidden => ⟨' ', ' ', ' ', ' ', ' ', ' '⟩
  | .none => ⟨' ', ' ', ' ', ' ', ' ', ' '⟩

/-- Modelled from the spec: `lipgloss.Style.Render`, from the lipgloss
library the repository imports but does not contain. A style wraps its
argument in escape sequences of display width 0 (spec §3: escapes occupy no
display column; §6: content is "plain text plus embedded terminal
attribute/color escape sequences"), and emits none at all on a
non-color terminal. Every verified property compares display widths or
escape-stripped visual content, which are independent of the emitted
escapes, so styling is modelled as the zero-escape instance: the
identity. -/
def styleRender (s : GoStr) : GoStr := s

/-- `Panel` (`panel.go`). The five `lipgloss.Color` fields only feed
`styleRender`, which the spec-level model makes the identity, so they are
not carried. -/
structure Panel where
  title : GoStr
  content : GoStr
  width : Int
  height : Int
  border : BorderStyle
  focused : Bool
  deriving Repr, DecidableEq

/-- `Panel.ContentWidth` (`panel.go`). -/
def Panel.contentWidth (p : Panel) : Int :=
  if p.border = .none then p.width else p.width - 2

/-- `Panel.ContentHeight` (`panel.go`). -/
def Panel.contentHeight (p : Panel) : Int :=
  if p.border = .none then p.height else p.height - 2

/-- The title-fitting computation shared by `Panel.renderTopBorder` and
`Frame.renderTopBorder`: wrap a non-empty title in single spaces, truncate
it with an ellipsis when it overflows and `maxTitleWidth > 3`, drop it
entirely otherwise. Returns the final title and its width. -/
def fitTitle (rawTitle : GoStr) (maxTitleWidth : Int) : GoStr × Int :=
  let title := if rawTitle ≠ [] then [' '] ++ rawTitle ++ [' '] else []
  let titleWidth := lipglossWidth title
  if maxTitleWidth < titleWidth ∧ 3 < maxTitleWidth then
    let t := [' '] ++ TruncateWithEllipsis rawTitle (maxTitleWidth - 3) ++ [' ']
    (t, lipglossWidth t)
  else if maxTitleWidth < titleWidth then ([], 0)
  else (title, titleWidth)

/-- `Panel.renderTopBorder` (`panel.go`). -/
def Panel.renderTopBorder (p : Panel) (chars : BorderChars) : GoStr :=
  if p.width < 2 then []
  else
    let innerWidth := p.width - 2
    let leftPad : Int := 1
    let maxTitleWidth := innerWidth - leftPad - 1
    let tw := fitTitle p.title maxTitleWidth
    let rightPad := max 0 (innerWidth - leftPad - tw.2)
    let line :=
      styleRender [chars.topLeft] ++
      styleRender (List.replicate leftPad.toNat chars.horizontal) ++
      (if 0 < tw.2 then styleRender tw.1 else []) ++
      styleRender (List.replicate rightPad.toNat chars.horizontal) ++
      styleRender [chars.topRight]
    FitToWidth line p.width

/-- `Panel.renderContentLines` (`panel.go`): exactly `contentHeight` rows,
each content line fitted to `contentWidth`, wrapped in vertical border
glyphs, and the whole row fitted to `Width`. -/
def Panel.renderContentLines (p : Panel) (chars : BorderChars) : List GoStr :=
  let contentHeight := p.contentHeight
  let contentWidth := p.contentWidth
  if contentHeight ≤ 0 ∨ contentWidth ≤ 0 then []
  else
    let content :=
      if p.content = [] then List.replicate (contentHeight - 1).toNat '\n'
      else p.content
    let rawLines := splitOnNl content
    (List.range contentHeight.toNat).map fun i =>
      let lineContent := rawLines.getD i []
      let fitted := FitToWidth lineContent contentWidth
      FitToWidth
        (styleRender [chars.vertical] ++ styleRender fitted ++ styleRender [chars.vertical])
        p.width

/-- `Panel.renderBottomBorder` (`panel.go`). -/
def Panel.renderBottomBorder (p : Panel) (chars : BorderChars) : GoStr :=
  if p.width < 2 then []
  else
    let innerWidth := p.width - 2
    FitToWidth
      (styleRender [chars.bottomLeft] ++
        styleRender (List.replicate innerWidth.toNat chars.horizontal) ++
        styleRender [chars.bottomRight])
      p.width

/-- `Panel.renderContent` (`panel.go`): the borderless path, `height` lines
each forced through `FitToWidth(_, width)`. -/
def Panel.renderContent (p : Panel) (width height : Int) : GoStr :=
  let rawLines := splitOnNl p.content
  List.intercalate ['\n']
    ((List.range height.toNat).map fun i => FitToWidth (rawLines.getD i []) width)

/-- `Panel.Render` (`panel.go`). Note there is no `width < 2` or
`height < 2` fallback here: the bordered path runs whenever the border
style is not `none` and both dimensions are positive. -/
def Panel.render (p : Panel) : GoStr :=
  if p.width ≤ 0 ∨ p.height ≤ 0 then []
  else if p.border = .none then p.renderContent p.width p.height
  else
    let borderStyle :=
      if p.focused ∧ p.border ≠ .none ∧ p.border ≠ .hidden then BorderStyle.double
      else p.border
    let chars := GetBorderChars borderStyle
    List.intercalate ['\n']
      ([p.renderTopBorder chars] ++ p.renderContentLines chars ++
        [p.renderBottomBorder chars])

/-- `Frame` (`frame.go`). As with `Panel`, the color fields only feed
`styleRender` and are not carried. -/
structure Frame where
  width : Int
  height : Int
  title : GoStr
  border : BorderStyle
  focused : Bool
  content : List GoStr
  deriving Repr, DecidableEq

/-- `Frame.ContentWidth` (`frame.go`). -/
def Frame.contentWidth (f : Frame) : Int :=
  if f.border = .none then f.width else max 0 (f.width - 2)

/-- `Frame.ContentHeight` (`frame.go`). -/
def Frame.contentHeight (f : Frame) : Int :=
  if f.border = .none then f.height else max 0 (f.height - 2)

/-- `Frame.renderTopBorder` (`frame.go`): like the panel top border but
with no `width < 2` guard. -/
def Frame.renderTopBorder (f : Frame) (chars : BorderChars) : GoStr :=
  let innerWidth := f.width - 2
  let leftPad : Int := 1
  let maxTitleWidth := innerWidth - leftPad - 1
  let tw := fitTitle f.title maxTitleWidth
  let rightPad := max 0 (innerWidth - leftPad - tw.2)
  let line :=
    styleRender [chars.topLeft] ++
    styleRender (List.replicate leftPad.toNat chars.horizontal) ++
    (if 0 < tw.2 then styleRender tw.1 else []) ++
    styleRender (List.replicate rightPad.toNat chars.horizontal) ++
    styleRender [chars.topRight]
  FitToWidth line f.width

/-- `Frame.renderContentLines` (`frame.go`). -/
def Frame.renderContentLines (f : Frame) (chars : BorderChars) : List GoStr :=
  let contentHeight := f.contentHeight
  let contentWidth := f.contentWidth
  if contentHeight ≤ 0 ∨ contentWidth ≤ 0 then []
  else
    (List.range contentHeight.toNat).map fun i =>
      let lineContent := f.content.getD i []
      let fitted := FitToWidth lineContent contentWidth
      FitToWidth
        (styleRender [chars.vertical] ++ styleRender fitted ++ styleRender [chars.vertical])
        f.width

/-- `Frame.renderBottomBorder` (`frame.go`). -/
def Frame.renderBottomBorder (f : Frame) (chars : BorderChars) : GoStr :=
  let innerWidth := f.width - 2
  FitToWidth
    (styleRender [chars.bottomLeft] ++
      styleRender (List.replicate innerWidth.toNat chars.horizontal) ++
      styleRender [chars.bottomRight])
    f.width

/-- `Frame.renderNoBorder` (`frame.go`): `Height` lines of content, each
fitted to `Width`. -/
def Frame.renderNoBorder (f : Frame) : GoStr :=
  List.intercalate ['\n']
    ((List.range f.height.toNat).map fun i =>
      styleRender (FitToWidth (f.content.getD i []) f.width))

/-- `Frame.Render` (`frame.go`): empty for non-positive dimensions,
borderless path for `Border == BorderNone` and as the explicit fallback
when `Width < 2 || Height < 2`. -/
def Frame.render (f : Frame) : GoStr :=
  if f.width ≤ 0 ∨ f.height ≤ 0 then []
  else if f.border = .none then f.renderNoBorder
  else if f.width < 2 ∨ f.height < 2 then f.renderNoBorder
  else
    let borderStyle :=
      if f.focused ∧ f.border ≠ .hidden then BorderStyle.double else f.border
    let chars := GetBorderChars borderStyle
    List.intercalate ['\n']
      ([f.renderTopBorder chars] ++ f.renderContentLines chars ++
        [f.renderBottomBorder chars])

/-- `stripAnsi` (`layout.go`): drop escape sequences, keep text runes. -/
def stripAnsi : GoStr → Bool → GoStr
  | [], _ => []
  | c :: cs, inEscape =>
    if c = escChar then stripAnsi cs true
    else if inEscape then stripAnsi cs (!(isAsciiLetter c))
    else c :: stripAnsi cs false

/-- The visual cell row a styled string occupies: escape sequences
contribute nothing, and each text rune fills `RuneWidth` cells (a
double-width rune covers two adjacent columns). Column `j` of the rendered
string is `(cells s).getD j`. -/
def cellsAux : GoStr → Bool → GoStr
  | [], _ => []
  | c :: cs, inEscape =>
    if c = escChar then cellsAux cs true
    else if inEscape then cellsAux cs (!(isAsciiLetter c))
    else List.replicate (RuneWidth c).toNat c ++ cellsAux cs false

/-- The visual cells of a styled string, scanned from outside an escape. -/
def cells (s : GoStr) : GoStr := cellsAux s false

/-- A plain rune: single display width and not the escape character. Rows
made of plain runes have one rune per visual column. -/
def plainChar (c : Char) : Prop := RuneWidth c = 1 ∧ c ≠ escChar

/-- A plain string: every rune is plain. -/
def plainStr (s : GoStr) : Prop := ∀ c ∈ s, plainChar c

instance (c : Char) : Decidable (plainChar c) := by
  unfold plainChar
  infer_instance

instance (s : GoStr) : Decidable (plainStr s) := by
  unfold plainStr
  exact List.decidableBAll _ s

/-! ## Width facts about the truncation scanner -/

/-- Per-rune widths are 1 or 2. -/
theorem runeWidth_eq_one_or_two (c : Char) : RuneWidth c = 1 ∨ RuneWidth c = 2 := by
  unfold RuneWidth
  dsimp only
  split_ifs
  · right; rfl
  · right; rfl
  · left; rfl

theorem runeWidth_pos (c : Char) : 1 ≤ RuneWidth c := by
  rcases runeWidth_eq_one_or_two c with h | h <;> omega

theorem runeWidth_le_two (c : Char) : RuneWidth c ≤ 2 := by
  rcases runeWidth_eq_one_or_two c with h | h <;> omega

theorem lipglossWidthAux_nil (b : Bool) : lipglossWidthAux [] b = 0 := rfl

theorem lipglossWidthAux_cons (c : Char) (cs : GoStr) (b : Bool) :
    lipglossWidthAux (c :: cs) b =
      if c = escChar then lipglossWidthAux cs true
      else if b then lipglossWidthAux cs (!(isAsciiLetter c))
      else RuneWidth c + lipglossWidthAux cs false := rfl

theorem escStateAfter_nil (b : Bool) : escStateAfter [] b = b := rfl

theorem escStateAfter_cons (c : Char) (cs : GoStr) (b : Bool) :
    escStateAfter (c :: cs) b =
      if c = escChar then escStateAfter cs true
      else if b then escStateAfter cs (!(isAsciiLetter c))
      else escStateAfter cs false := rfl

theorem lipglossWidthAux_nonneg (cs : GoStr) (b : Bool) : 0 ≤ lipglossWidthAux cs b := by
  induction cs generalizing b with
  | nil => simp [lipglossWidthAux_nil]
  | cons c cs ih =>
    rw [lipglossWidthAux_cons]
    split_ifs
    · exact ih true
    · exact ih _
    · have := runeWidth_pos c
      have := ih false
      omega

/-- Width splits over append through the scanner state. -/
theorem lipglossWidthAux_append (xs ys : GoStr) (b : Bool) :
    lipglossWidthAux (xs ++ ys) b =
      lipglossWidthAux xs b + lipglossWidthAux ys (escStateAfter xs b) := by
  induction xs generalizing b with
  | nil => simp [lipglossWidthAux_nil, escStateAfter_nil]
  | cons c cs ih =>
    rw [List.cons_append, lipglossWidthAux_cons, lipglossWidthAux_cons,
      escStateAfter_cons]
    split_ifs
    · rw [ih true]
    · rw [ih _]
    · rw [ih false]; ring

theorem truncLoop_nil (maxW w : Int) (inEsc : Bool) (esc : GoStr) :
    truncLoop [] maxW w inEsc esc = [] := rfl

theorem truncLoop_cons (c : Char) (cs : GoStr) (maxW w : Int) (inEsc : Bool) (esc : GoStr) :
    truncLoop (c :: cs) maxW w inEsc esc =
      if c = escChar then truncLoop cs maxW w true [escChar]
      else if inEsc then
        if isAsciiLetter c then (esc ++ [c]) ++ truncLoop cs maxW w false []
        else truncLoop cs maxW w true (esc ++ [c])
      else if w + RuneWidth c > maxW then []
      else c :: truncLoop cs maxW (w + RuneWidth c) false esc := rfl

/-- A pending escape sequence as `truncLoop` accumulates it: an escape
character followed by non-letters (nothing has terminated it yet). -/
def goodEsc (esc : GoStr) : Prop :=
  ∃ t, esc = escChar :: t ∧ ∀ c ∈ t, isAsciiLetter c = false

theorem goodEsc_start : goodEsc [escChar] :=
  ⟨[], rfl, by simp⟩

theorem goodEsc_append {esc : GoStr} (h : goodEsc esc) {c : Char}
    (hc : isAsciiLetter c = false) : goodEsc (esc ++ [c]) := by
  obtain ⟨t, rfl, ht⟩ := h
  refine ⟨t ++ [c], by simp, ?_⟩
  intro d hd
  rcases List.mem_append.1 hd with h' | h'
  · exact ht d h'
  · simp only [List.mem_singleton] at h'
    subst h'
    exact hc

theorem isAsciiLetter_escChar : isAsciiLetter escChar = false := by decide

/-- Scanning a run of non-letters keeps the scanner inside the escape. -/
theorem lipglossWidthAux_nonletters (t : GoStr) (ht : ∀ c ∈ t, isAsciiLetter c = false)
    (ys : GoStr) : lipglossWidthAux (t ++ ys) true = lipglossWidthAux ys true := by
  induction t with
  | nil => simp
  | cons c cs ih =>
    rw [List.cons_append, lipglossWidthAux_cons]
    have hc := ht c (List.mem_cons_self c cs)
    have ih' := ih fun d hd => ht d (List.mem_cons_of_mem _ hd)
    by_cases h1 : c = escChar
    · rw [if_pos h1]; exact ih'
    · rw [if_neg h1, if_pos rfl, hc, Bool.not_false]; exact ih'

theorem escStateAfter_nonletters (t : GoStr) (ht : ∀ c ∈ t, isAsciiLetter c = false)
    (ys : GoStr) : escStateAfter (t ++ ys) true = escStateAfter ys true := by
  induction t with
  | nil => simp
  | cons c cs ih =>
    rw [List.cons_append, escStateAfter_cons]
    have hc := ht c (List.mem_cons_self c cs)
    have ih' := ih fun d hd => ht d (List.mem_cons_of_mem _ hd)
    by_cases h1 : c = escChar
    · rw [if_pos h1]; exact ih'
    · rw [if_neg h1, if_pos rfl, hc, Bool.not_false]; exact ih'

/-- A flushed escape sequence (pending accumulation plus its terminating
letter) contributes zero width. -/
theorem lipglossWidthAux_flush {esc : GoStr} (h : goodEsc esc) {c : Char}
    (hc : isAsciiLetter c = true) (ys : GoStr) :
    lipglossWidthAux ((esc ++ [c]) ++ ys) false = lipglossWidthAux ys false := by
  obtain ⟨t, rfl, ht⟩ := h
  have hne : c ≠ escChar := by
    intro h'
    rw [h', isAsciiLetter_escChar] at hc
    exact Bool.false_ne_true hc
  rw [List.cons_append, List.cons_append, lipglossWidthAux_cons, if_pos rfl,
    List.append_assoc, lipglossWidthAux_nonletters t ht, List.cons_append,
    lipglossWidthAux_cons, if_neg hne]
  simp [hc]

/-- A flushed escape sequence leaves the scanner outside escapes. -/
theorem escStateAfter_flush {esc : GoStr} (h : goodEsc esc) {c : Char}
    (hc : isAsciiLetter c = true) (ys : GoStr) :
    escStateAfter ((esc ++ [c]) ++ ys) false = escStateAfter ys false := by
  obtain ⟨t, rfl, ht⟩ := h
  have hne : c ≠ escChar := by
    intro h'
    rw [h', isAsciiLetter_escChar] at hc
    exact Bool.false_ne_true hc
  rw [List.cons_append, List.cons_append, escStateAfter_cons, if_pos rfl,
    List.append_assoc, escStateAfter_nonletters t ht, List.cons_append,
    escStateAfter_cons, if_neg hne]
  simp [hc]

/-- The truncation loop's output leaves the scanner outside escapes: every
escape sequence it emits is complete. -/
theorem truncLoop_escState (cs : GoStr) (maxW : Int) :
    ∀ (w : Int) (inEsc : Bool) (esc : GoStr), (inEsc = true → goodEsc esc) →
      escStateAfter (truncLoop cs maxW w inEsc esc) false = false := by
  induction cs with
  | nil => intro w inEsc esc _; rfl
  | cons c cs ih =>
    intro w inEsc esc hesc
    rw [truncLoop_cons]
    by_cases h1 : c = escChar
    · rw [if_pos h1]
      exact ih w true [escChar] fun _ => goodEsc_start
    · rw [if_neg h1]
      cases inEsc with
      | true =>
        rw [if_pos rfl]
        by_cases h3 : isAsciiLetter c = true
        · rw [if_pos h3, escStateAfter_flush (hesc rfl) h3]
          exact ih w false [] fun h => absurd h (by simp)
        · rw [if_neg h3]
          exact ih w true (esc ++ [c]) fun _ =>
            goodEsc_append (hesc rfl) (by simpa using h3)
      | false =>
        rw [if_neg (by simp)]
        by_cases h4 : w + RuneWidth c > maxW
        · rw [if_pos h4]; rfl
        · rw [if_neg h4, escStateAfter_cons, if_neg h1, if_neg (by simp)]
          exact ih (w + RuneWidth c) false esc fun h => absurd h (by simp)

/-- Upper width bound for the truncation loop: it never emits more than
`maxW - w` cells of text. -/
theorem truncLoop_width_le (cs : GoStr) (maxW : Int) :
    ∀ (w : Int) (inEsc : Bool) (esc : GoStr), (inEsc = true → goodEsc esc) →
      w ≤ maxW →
      lipglossWidthAux (truncLoop cs maxW w inEsc esc) false ≤ maxW - w := by
  induction cs with
  | nil =>
    intro w inEsc esc _ hw
    rw [truncLoop_nil, lipglossWidthAux_nil]
    omega
  | cons c cs ih =>
    intro w inEsc esc hesc hw
    rw [truncLoop_cons]
    by_cases h1 : c = escChar
    · rw [if_pos h1]
      exact ih w true [escChar] (fun _ => goodEsc_start) hw
    · rw [if_neg h1]
      cases inEsc with
      | true =>
        rw [if_pos rfl]
        by_cases h3 : isAsciiLetter c = true
        · rw [if_pos h3, lipglossWidthAux_flush (hesc rfl) h3]
          exact ih w false [] (fun h => absurd h (by simp)) hw
        · rw [if_neg h3]
          exact ih w true (esc ++ [c])
            (fun _ => goodEsc_append (hesc rfl) (by simpa using h3)) hw
      | false =>
        rw [if_neg (by simp)]
        by_cases h4 : w + RuneWidth c > maxW
        · rw [if_pos h4, lipglossWidthAux_nil]
          omega
        · rw [if_neg h4, lipglossWidthAux_cons, if_neg h1, if_neg (by simp)]
          have := ih (w + RuneWidth c) false esc (fun h => absurd h (by simp)) (by omega)
          omega

/-- Lower width bound for the truncation loop: when the source is too wide,
the loop stops at most one cell short of `maxW`. -/
theorem truncLoop_width_ge (cs : GoStr) (maxW : Int) :
    ∀ (w : Int) (inEsc : Bool) (esc : GoStr), (inEsc = true → goodEsc esc) →
      maxW < w + lipglossWidthAux cs inEsc →
      maxW - 1 - w ≤ lipglossWidthAux (truncLoop cs maxW w inEsc esc) false := by
  induction cs with
  | nil =>
    intro w inEsc esc _ hwide
    rw [lipglossWidthAux_nil] at hwide
    rw [truncLoop_nil, lipglossWidthAux_nil]
    omega
  | cons c cs ih =>
    intro w inEsc esc hesc hwide
    rw [lipglossWidthAux_cons] at hwide
    rw [truncLoop_cons]
    by_cases h1 : c = escChar
    · rw [if_pos h1] at hwide
      rw [if_pos h1]
      exact ih w true [escChar] (fun _ => goodEsc_start) hwide
    · rw [if_neg h1] at hwide
      rw [if_neg h1]
      cases inEsc with
      | true =>
        rw [if_pos rfl] at hwide
        rw [if_pos rfl]
        by_cases h3 : isAsciiLetter c = true
        · rw [if_pos h3, lipglossWidthAux_flush (hesc rfl) h3]
          rw [h3, Bool.not_true] at hwide
          exact ih w false [] (fun h => absurd h (by simp)) hwide
        · rw [if_neg h3]
          have h3' : isAsciiLetter c = false := by simpa using h3
          rw [h3', Bool.not_false] at hwide
          exact ih w true (esc ++ [c])
            (fun _ => goodEsc_append (hesc rfl) h3') hwide
      | false =>
        rw [if_neg (by simp)] at hwide
        rw [if_neg (by simp)]
        by_cases h4 : w + RuneWidth c > maxW
        · rw [if_pos h4, lipglossWidthAux_nil]
          have := runeWidth_le_two c
          omega
        · rw [if_neg h4, lipglossWidthAux_cons, if_neg h1, if_neg (by simp)]
          have := ih (w + RuneWidth c) false esc (fun h => absurd h (by simp))
            (by omega)
          omega

theorem escStateAfter_append (xs ys : GoStr) (b : Bool) :
    escStateAfter (xs ++ ys) b = escStateAfter ys (escStateAfter xs b) := by
  induction xs generalizing b with
  | nil => simp [escStateAfter_nil]
  | cons c cs ih =>
    rw [List.cons_append, escStateAfter_cons, escStateAfter_cons]
    by_cases h1 : c = escChar
    · rw [if_pos h1, if_pos h1, ih]
    · rw [if_neg h1, if_neg h1]
      cases b with
      | true => rw [if_pos rfl, if_pos rfl, ih]
      | false => rw [if_neg (by simp), if_neg (by simp), ih]

theorem resetSeq_width : lipglossWidthAux resetSeq false = 0 := by decide

theorem resetSeq_escState : escStateAfter resetSeq false = false := by decide

/-- On the truncating branch, the width and final scanner state of
`TruncateToWidth s maxW` coincide with those of the bare loop output: the
conditionally appended reset sequence is invisible to both. -/
theorem TruncateToWidth_width_eq_loop (s : GoStr) (maxW : Int)
    (h0 : ¬maxW ≤ 0) (h2 : ¬lipglossWidth s ≤ maxW) :
    lipglossWidth (TruncateToWidth s maxW) =
      lipglossWidthAux (truncLoop s maxW 0 false []) false ∧
    escStateAfter (TruncateToWidth s maxW) false = false := by
  have hstate := truncLoop_escState s maxW 0 false [] fun h => absurd h (by simp)
  unfold TruncateToWidth
  rw [if_neg h0, if_neg h2]
  dsimp only
  by_cases hc : (containsSeq escOpen (truncLoop s maxW 0 false []) &&
      !resetSeq.isSuffixOf (truncLoop s maxW 0 false [])) = true
  · rw [if_pos hc]
    constructor
    · show lipglossWidthAux _ false = _
      rw [lipglossWidthAux_append, hstate, resetSeq_width]
      ring
    · rw [escStateAfter_append, hstate, resetSeq_escState]
  · rw [if_neg hc]
    exact ⟨rfl, hstate⟩

/-- `TruncateToWidth` never exceeds the requested width. -/
theorem TruncateToWidth_width_le (s : GoStr) (maxW : Int) (h : 0 ≤ maxW) :
    lipglossWidth (TruncateToWidth s maxW) ≤ maxW := by
  by_cases h0 : maxW ≤ 0
  · unfold TruncateToWidth
    rw [if_pos h0]
    show lipglossWidthAux [] false ≤ maxW
    rw [lipglossWidthAux_nil]
    omega
  · by_cases h2 : lipglossWidth s ≤ maxW
    · unfold TruncateToWidth
      rw [if_neg h0, if_pos h2]
      exact h2
    · rw [(TruncateToWidth_width_eq_loop s maxW h0 h2).1]
      have := truncLoop_width_le s maxW 0 false [] (fun h => absurd h (by simp))
        (by omega)
      omega

/-- When truncation actually cuts, the result is at most one cell short. -/
theorem TruncateToWidth_width_ge (s : GoStr) (maxW : Int)
    (h2 : maxW < lipglossWidth s) :
    maxW - 1 ≤ lipglossWidth (TruncateToWidth s maxW) := by
  by_cases h0 : maxW ≤ 0
  · unfold TruncateToWidth
    rw [if_pos h0]
    show maxW - 1 ≤ lipglossWidthAux [] false
    rw [lipglossWidthAux_nil]
    omega
  · rw [(TruncateToWidth_width_eq_loop s maxW h0 (by omega)).1]
    have := truncLoop_width_ge s maxW 0 false [] (fun h => absurd h (by simp))
      (by unfold lipglossWidth at h2; omega)
    omega

/-- Unfolding equation for `FitToWidth`. -/
theorem FitToWidth_eq (s : GoStr) (width : Int) :
    FitToWidth s width =
      if width ≤ 0 then []
      else if lipglossWidth s = width then s
      else if lipglossWidth s > width then TruncateToWidth s width
      else s ++ List.replicate (width - lipglossWidth s).toNat ' ' := rfl

/-- Unfolding equation for `TruncateWithEllipsis`. -/
theorem TruncateWithEllipsis_eq (s : GoStr) (maxWidth : Int) :
    TruncateWithEllipsis s maxWidth =
      if maxWidth ≤ 0 then []
      else if lipglossWidth s ≤ maxWidth then s
      else if maxWidth ≤ 1 then ['…']
      else TruncateToWidth s (maxWidth - 1) ++ ['…'] := rfl

/-! ## Facts about calcSizes -/

theorem effWeight_pos (b : Box) : 1 ≤ effWeight b := by
  unfold effWeight
  split_ifs with h
  · omega
  · omega

theorem weightSum_nil : weightSum [] = 0 := rfl

theorem weightSum_cons (b : Box) (rest : List Box) :
    weightSum (b :: rest) =
      (if b.size ≤ 0 then effWeight b else 0) + weightSum rest := rfl

theorem weightSum_nonneg (boxes : List Box) : 0 ≤ weightSum boxes := by
  induction boxes with
  | nil => simp [weightSum_nil]
  | cons b rest ih =>
    rw [weightSum_cons]
    have := effWeight_pos b
    split_ifs <;> omega

theorem prefixWeightSum_zero (boxes : List Box) : prefixWeightSum boxes 0 = 0 := rfl

theorem prefixWeightSum_cons (b : Box) (rest : List Box) (j : Nat) :
    prefixWeightSum (b :: rest) (j + 1) =
      (if b.size ≤ 0 then effWeight b else 0) + prefixWeightSum rest j := by
  unfold prefixWeightSum
  rw [List.take_succ_cons, weightSum_cons]

theorem prefixWeightSum_nonneg (boxes : List Box) (i : Nat) :
    0 ≤ prefixWeightSum boxes i :=
  weightSum_nonneg _

theorem calcPass1_cons (b : Box) (rest : List Box) (avail reserved : Int) :
    calcPass1 (b :: rest) avail reserved =
      if 0 < b.size then
        (min b.size (avail - reserved) ::
            (calcPass1 rest avail (reserved + min b.size (avail - reserved))).1,
          (calcPass1 rest avail (reserved + min b.size (avail - reserved))).2)
      else
        (0 :: (calcPass1 rest avail reserved).1,
          (calcPass1 rest avail reserved).2.1,
          (calcPass1 rest avail reserved).2.2 + effWeight b) := rfl

theorem calcPass1_length (boxes : List Box) :
    ∀ (avail reserved : Int), (calcPass1 boxes avail reserved).1.length = boxes.length := by
  induction boxes with
  | nil => intro avail reserved; rfl
  | cons b rest ih =>
    intro avail reserved
    by_cases h : 0 < b.size
    · rw [calcPass1_cons, if_pos h]
      dsimp only
      rw [List.length_cons, ih avail _, List.length_cons]
    · rw [calcPass1_cons, if_neg h]
      dsimp only
      rw [List.length_cons, ih avail reserved, List.length_cons]

theorem calcPass1_totalWeight (boxes : List Box) :
    ∀ (avail reserved : Int), (calcPass1 boxes avail reserved).2.2 = weightSum boxes := by
  induction boxes with
  | nil => intro avail reserved; rfl
  | cons b rest ih =>
    intro avail reserved
    by_cases h : 0 < b.size
    · rw [calcPass1_cons, if_pos h]
      dsimp only
      rw [ih avail _, weightSum_cons, if_neg (by omega)]
      omega
    · rw [calcPass1_cons, if_neg h]
      dsimp only
      rw [ih avail reserved, weightSum_cons, if_pos (by omega)]
      omega

theorem calcPass1_sum (boxes : List Box) :
    ∀ (avail reserved : Int),
      (calcPass1 boxes avail reserved).1.sum =
        (calcPass1 boxes avail reserved).2.1 - reserved := by
  induction boxes with
  | nil => intro avail reserved; simp [calcPass1]
  | cons b rest ih =>
    intro avail reserved
    by_cases h : 0 < b.size
    · rw [calcPass1_cons, if_pos h]
      dsimp only
      rw [List.sum_cons, ih avail (reserved + min b.size (avail - reserved))]
      omega
    · rw [calcPass1_cons, if_neg h]
      dsimp only
      rw [List.sum_cons, ih avail reserved]
      omega

theorem calcPass1_reserved_bounds (boxes : List Box) :
    ∀ (avail reserved : Int), reserved ≤ avail →
      reserved ≤ (calcPass1 boxes avail reserved).2.1 ∧
      (calcPass1 boxes avail reserved).2.1 ≤ avail := by
  induction boxes with
  | nil => intro avail reserved h; exact ⟨le_refl _, h⟩
  | cons b rest ih =>
    intro avail reserved h
    by_cases hb : 0 < b.size
    · rw [calcPass1_cons, if_pos hb]
      dsimp only
      have hs : 0 ≤ min b.size (avail - reserved) ∧
          min b.size (avail - reserved) ≤ avail - reserved := by omega
      have := ih avail (reserved + min b.size (avail - reserved)) (by omega)
      exact ⟨by omega, this.2⟩
    · rw [calcPass1_cons, if_neg hb]
      dsimp only
      exact ih avail reserved h

theorem calcPass1_zeros (boxes : List Box) :
    ∀ (avail reserved : Int),
      List.Forall₂ (fun (b : Box) (s : Int) => b.size ≤ 0 → s = 0) boxes
        (calcPass1 boxes avail reserved).1 := by
  induction boxes with
  | nil => intro avail reserved; exact List.Forall₂.nil
  | cons b rest ih =>
    intro avail reserved
    by_cases hb : 0 < b.size
    · rw [calcPass1_cons, if_pos hb]
      dsimp only
      exact List.Forall₂.cons (fun h => absurd h (by omega)) (ih avail _)
    · rw [calcPass1_cons, if_neg hb]
      dsimp only
      exact List.Forall₂.cons (fun _ => rfl) (ih avail reserved)

theorem calcPass2_cons (b : Box) (rest : List Box) (s : Int) (ss : List Int)
    (unit extra : Int) :
    calcPass2 (b :: rest) (s :: ss) unit extra =
      if b.size ≤ 0 then
        (unit * effWeight b + (if 0 < extra then min (effWeight b) extra else 0)) ::
          calcPass2 rest ss unit
            (extra - (if 0 < extra then min (effWeight b) extra else 0))
      else s :: calcPass2 rest ss unit extra := rfl

/-- The second pass hands out exactly the `extraSpace` pool on top of
`unit * weight` per weighted box, as long as the pool does not exceed the
total weight. -/
theorem calcPass2_sum {boxes : List Box} {szs : List Int}
    (hz : List.Forall₂ (fun (b : Box) (s : Int) => b.size ≤ 0 → s = 0) boxes szs) :
    ∀ (unit extra : Int), 0 ≤ extra → extra ≤ weightSum boxes →
      (calcPass2 boxes szs unit extra).sum =
        szs.sum + unit * weightSum boxes + extra := by
  induction hz with
  | nil =>
    intro unit extra h0 hle
    rw [weightSum_nil] at hle
    show (0 : Int) = _
    simp [weightSum_nil]
    omega
  | @cons b s rest ss hb hrest ih =>
    intro unit extra h0 hle
    have hwr := weightSum_nonneg rest
    have hwb := effWeight_pos b
    by_cases hsz : b.size ≤ 0
    · have hs0 : s = 0 := hb hsz
      rw [weightSum_cons, if_pos hsz] at hle ⊢
      by_cases he : 0 < extra
      · rw [calcPass2_cons, if_pos hsz, if_pos he, List.sum_cons,
          ih unit (extra - min (effWeight b) extra) (by omega) (by omega),
          List.sum_cons, hs0]
        have : unit * (effWeight b + weightSum rest) =
            unit * effWeight b + unit * weightSum rest := by ring
        omega
      · rw [calcPass2_cons, if_pos hsz, if_neg he, List.sum_cons,
          ih unit (extra - 0) (by omega) (by omega), List.sum_cons, hs0]
        have : unit * (effWeight b + weightSum rest) =
            unit * effWeight b + unit * weightSum rest := by ring
        omega
    · rw [weightSum_cons, if_neg hsz] at hle ⊢
      rw [zero_add, calcPass2_cons, if_neg hsz, List.sum_cons, List.sum_cons,
        ih unit extra h0 (by omega)]
      omega

theorem calcSizes_cons (b : Box) (rest : List Box) (avail : Int) :
    calcSizes (b :: rest) avail =
      if 0 < (calcPass1 (b :: rest) avail 0).2.2 ∧
          0 < avail - (calcPass1 (b :: rest) avail 0).2.1 then
        calcPass2 (b :: rest) (calcPass1 (b :: rest) avail 0).1
          (goDiv (avail - (calcPass1 (b :: rest) avail 0).2.1)
            (calcPass1 (b :: rest) avail 0).2.2)
          (goMod (avail - (calcPass1 (b :: rest) avail 0).2.1)
            (calcPass1 (b :: rest) avail 0).2.2)
      else (calcPass1 (b :: rest) avail 0).1 := rfl

/-- The sizes distributed by `calcSizes` tile the available space exactly
whenever some box is weighted and the space is non-negative. -/
theorem calcSizes_sum_eq (boxes : List Box) (avail : Int) (h0 : 0 ≤ avail)
    (hw : 0 < weightSum boxes) : (calcSizes boxes avail).sum = avail := by
  cases boxes with
  | nil => rw [weightSum_nil] at hw; omega
  | cons b rest =>
    rw [calcSizes_cons]
    have htw := calcPass1_totalWeight (b :: rest) avail 0
    have hsum := calcPass1_sum (b :: rest) avail 0
    have hbounds := calcPass1_reserved_bounds (b :: rest) avail 0 h0
    split_ifs with hcond
    · have hrem : 0 < avail - (calcPass1 (b :: rest) avail 0).2.1 := hcond.2
      simp only [goDiv, goMod]
      have hmod0 : 0 ≤ Int.tmod (avail - (calcPass1 (b :: rest) avail 0).2.1)
          (calcPass1 (b :: rest) avail 0).2.2 :=
        Int.tmod_nonneg _ (by omega)
      have hmodlt : Int.tmod (avail - (calcPass1 (b :: rest) avail 0).2.1)
            (calcPass1 (b :: rest) avail 0).2.2 <
          (calcPass1 (b :: rest) avail 0).2.2 :=
        Int.tmod_lt_of_pos _ hcond.1
      rw [calcPass2_sum (calcPass1_zeros (b :: rest) avail 0) _ _ hmod0
        (by omega)]
      have hdm := Int.tmod_add_tdiv
        (avail - (calcPass1 (b :: rest) avail 0).2.1)
        (calcPass1 (b :: rest) avail 0).2.2
      rw [hsum, ← htw]
      rw [mul_comm] at hdm
      linarith [hdm]
    · rw [hsum]
      have h1 : 0 < (calcPass1 (b :: rest) avail 0).2.2 := by rw [htw]; exact hw
      have h2 : ¬0 < avail - (calcPass1 (b :: rest) avail 0).2.1 :=
        fun h => hcond ⟨h1, h⟩
      omega

/-- Closed form for a weighted box's entry after the second pass: base
share `unit * weight` plus `min(weight, pool left)`, where the pool left at
index `i` is the initial pool minus the effective weights of the weighted
boxes before `i`, floored at zero. -/
theorem calcPass2_get (boxes : List Box) :
    ∀ (szs : List Int) (unit extra : Int), 0 ≤ extra →
      szs.length = boxes.length →
      ∀ (i : Nat) (b : Box), boxes[i]? = some b → b.size ≤ 0 →
        (calcPass2 boxes szs unit extra)[i]? =
          some (unit * effWeight b +
            min (effWeight b) (max 0 (extra - prefixWeightSum boxes i))) := by
  induction boxes with
  | nil =>
    intro szs unit extra h0 hlen i b hb hbw
    simp at hb
  | cons b0 rest ih =>
    intro szs unit extra h0 hlen i b hb hbw
    match szs, hlen with
    | s :: ss, hlen =>
      have hlen' : ss.length = rest.length := by simpa using hlen
      have hwb0 := effWeight_pos b0
      match i, hb with
      | 0, hb =>
        have hb0 : b0 = b := by simpa using hb
        subst hb0
        rw [calcPass2_cons, if_pos hbw, List.getElem?_cons_zero,
          prefixWeightSum_zero]
        by_cases he : 0 < extra
        · rw [if_pos he]
          congr 1
          omega
        · rw [if_neg he]
          congr 1
          omega
      | j + 1, hb =>
        have hbj : rest[j]? = some b := by simpa using hb
        by_cases hsz : b0.size ≤ 0
        · rw [calcPass2_cons, if_pos hsz, List.getElem?_cons_succ,
            prefixWeightSum_cons, if_pos hsz]
          set e := if 0 < extra then min (effWeight b0) extra else 0 with hedef
          have he0 : 0 ≤ e ∧ e ≤ extra ∧ extra - e = max 0 (extra - effWeight b0) := by
            rw [hedef]
            by_cases he : 0 < extra
            · rw [if_pos he]
              omega
            · rw [if_neg he]
              omega
          rw [ih ss unit (extra - e) (by omega) hlen' j b hbj hbw]
          have hpj := prefixWeightSum_nonneg rest j
          congr 1
          omega
        · rw [calcPass2_cons, if_neg hsz, List.getElem?_cons_succ,
            prefixWeightSum_cons, if_neg hsz]
          rw [ih ss unit extra h0 hlen' j b hbj hbw]
          congr 1
          omega

/-! ## Facts about ArrangeWindows -/

theorem treeWindows_mk (d : Direction) (children : List Box) (window : String)
    (sz wt : Int) :
    treeWindows (Box.mk d children window sz wt) =
      if window ≠ "" then [window] else treeWindowsList children := rfl

theorem treeWindowsList_nil : treeWindowsList [] = [] := rfl

theorem treeWindowsList_cons (c : Box) (cs : List Box) :
    treeWindowsList (c :: cs) = treeWindows c ++ treeWindowsList cs := rfl

theorem mem_treeWindowsList {name : String} {x : Box} {cs : List Box}
    (hx : x ∈ cs) (hname : name ∈ treeWindows x) : name ∈ treeWindowsList cs := by
  induction cs with
  | nil => cases hx
  | cons c rest ih =>
    rw [treeWindowsList_cons, List.mem_append]
    rcases List.mem_cons.1 hx with h | h
    · exact Or.inl (h ▸ hname)
    · exact Or.inr (ih h)

theorem NameMap.empty_apply (k : String) : NameMap.empty k = none := rfl

theorem NameMap.merge_eq_none {m1 m2 : NameMap} {k : String} :
    NameMap.merge m1 m2 k = none ↔ m1 k = none ∧ m2 k = none := by
  unfold NameMap.merge
  cases h : m2 k <;> simp [h]

theorem ArrangeWindows_mk_nil (d : Direction) (window : String)
    (sz wt : Int) (x0 y0 w h : Int) :
    ArrangeWindows (Box.mk d [] window sz wt) x0 y0 w h =
      if window ≠ "" then
        fun k =>
          if k = window then some ⟨x0, y0, x0 + w - 1, y0 + h - 1⟩ else none
      else NameMap.empty := rfl

theorem ArrangeWindows_mk_cons (d : Direction) (c : Box) (cs : List Box)
    (window : String) (sz wt : Int) (x0 y0 w h : Int) :
    ArrangeWindows (Box.mk d (c :: cs) window sz wt) x0 y0 w h =
      if window ≠ "" then
        fun k =>
          if k = window then some ⟨x0, y0, x0 + w - 1, y0 + h - 1⟩ else none
      else
        arrangeChildren (c :: cs)
          (calcSizes (c :: cs) (if d = Direction.column then w else h))
          d x0 y0 w h 0 NameMap.empty := rfl

theorem arrangeChildren_nil (ss : List Int) (dir : Direction)
    (x0 y0 w h off : Int) (acc : NameMap) :
    arrangeChildren [] ss dir x0 y0 w h off acc = acc := rfl

theorem arrangeChildren_cons_nil (c : Box) (rest : List Box) (dir : Direction)
    (x0 y0 w h off : Int) (acc : NameMap) :
    arrangeChildren (c :: rest) [] dir x0 y0 w h off acc = acc := rfl

theorem arrangeChildren_cons (c : Box) (rest : List Box) (boxSize : Int)
    (ss : List Int) (dir : Direction) (x0 y0 w h off : Int) (acc : NameMap) :
    arrangeChildren (c :: rest) (boxSize :: ss) dir x0 y0 w h off acc =
      if boxSize ≤ 0 then arrangeChildren rest ss dir x0 y0 w h off acc
      else
        arrangeChildren rest ss dir x0 y0 w h (off + boxSize)
          (acc.merge
            (match dir with
            | .column => ArrangeWindows c (x0 + off) y0 boxSize h
            | .row => ArrangeWindows c x0 (y0 + off) w boxSize)) := rfl

/-- Joint induction (on a size bound) for `ArrangeWindows` and its child
loop: a name that occurs in no positive-size subtree is absent from the
produced map. -/
theorem arrange_none_aux (n : Nat) :
    (∀ (root : Box), sizeOf root ≤ n → ∀ (x0 y0 w h : Int) (name : String),
        name ∉ treeWindows root → ArrangeWindows root x0 y0 w h name = none) ∧
    (∀ (cs : List Box), (∀ c ∈ cs, sizeOf c ≤ n) →
      ∀ (ss : List Int) (dir : Direction) (x0 y0 w h off : Int) (acc : NameMap)
        (name : String), acc name = none →
        (∀ p ∈ cs.zip ss, 0 < p.2 → name ∉ treeWindows p.1) →
        arrangeChildren cs ss dir x0 y0 w h off acc name = none) := by
  induction n with
  | zero =>
    constructor
    · intro root hsz
      exfalso
      cases root with
      | mk d children window sz wt => simp [Box.mk.sizeOf_spec] at hsz
    · intro cs hcs ss dir x0 y0 w h off acc name hacc _
      cases cs with
      | nil => rw [arrangeChildren_nil]; exact hacc
      | cons c rest =>
        exfalso
        have := hcs c (List.mem_cons_self c rest)
        cases c with
        | mk d children window sz wt => simp [Box.mk.sizeOf_spec] at this
  | succ n ihn =>
    obtain ⟨ihP, ihQ⟩ := ihn
    have hP : ∀ (root : Box), sizeOf root ≤ n + 1 →
        ∀ (x0 y0 w h : Int) (name : String), name ∉ treeWindows root →
          ArrangeWindows root x0 y0 w h name = none := by
      intro root hsz x0 y0 w h name hname
      cases root with
      | mk d children window sz wt =>
        rw [treeWindows_mk] at hname
        cases children with
        | nil =>
          rw [ArrangeWindows_mk_nil]
          by_cases hw : window ≠ ""
          · rw [if_pos hw]
            rw [if_pos hw] at hname
            simp only [List.mem_singleton] at hname
            simp only [if_neg hname]
          · rw [if_neg hw]
            rfl
        | cons c cs =>
          rw [ArrangeWindows_mk_cons]
          by_cases hw : window ≠ ""
          · rw [if_pos hw]
            rw [if_pos hw] at hname
            simp only [List.mem_singleton] at hname
            simp only [if_neg hname]
          · rw [if_neg hw]
            rw [if_neg hw] at hname
            have hsizes : ∀ x ∈ c :: cs, sizeOf x ≤ n := by
              intro x hx
              have h1 := List.sizeOf_lt_of_mem hx
              have h2 : sizeOf (Box.mk d (c :: cs) window sz wt) =
                  1 + sizeOf d + sizeOf (c :: cs) + sizeOf window + sizeOf sz +
                    sizeOf wt := by
                simp [Box.mk.sizeOf_spec]
              omega
            refine ihQ (c :: cs) hsizes _ d x0 y0 w h 0 NameMap.empty name rfl ?_
            intro p hp hpos hmem
            exact hname (mem_treeWindowsList (List.of_mem_zip hp).1 hmem)
    refine ⟨hP, ?_⟩
    intro cs
    induction cs with
    | nil =>
      intro _ ss dir x0 y0 w h off acc name hacc _
      rw [arrangeChildren_nil]
      exact hacc
    | cons c rest ihrest =>
      intro hcs ss dir x0 y0 w h off acc name hacc hmiss
      cases ss with
      | nil =>
        rw [arrangeChildren_cons_nil]
        exact hacc
      | cons s ss' =>
        rw [arrangeChildren_cons]
        by_cases hs : s ≤ 0
        · rw [if_pos hs]
          refine ihrest (fun x hx => hcs x (List.mem_cons_of_mem _ hx))
            ss' dir x0 y0 w h off acc name hacc ?_
          intro p hp
          exact hmiss p (by rw [List.zip_cons_cons]; exact List.mem_cons_of_mem _ hp)
        · rw [if_neg hs]
          have hnotin : name ∉ treeWindows c := by
            refine hmiss (c, s) ?_ (by omega)
            rw [List.zip_cons_cons]
            exact List.mem_cons_self _ _
          have hchild :
              (match dir with
                | Direction.column => ArrangeWindows c (x0 + off) y0 s h
                | Direction.row => ArrangeWindows c x0 (y0 + off) w s) name =
                none := by
            cases dir with
            | column => exact hP c (hcs c (List.mem_cons_self c rest)) _ _ _ _ name hnotin
            | row => exact hP c (hcs c (List.mem_cons_self c rest)) _ _ _ _ name hnotin
          refine ihrest (fun x hx => hcs x (List.mem_cons_of_mem _ hx))
            ss' dir x0 y0 w h (off + s) _ name
            (NameMap.merge_eq_none.2 ⟨hacc, hchild⟩) ?_
          intro p hp
          exact hmiss p (by rw [List.zip_cons_cons]; exact List.mem_cons_of_mem _ hp)

/-! ## Plain-string facts (single-width, escape-free rows) -/

theorem plainStr_mono {l l' : GoStr} (hsub : l' ⊆ l) (h : plainStr l) :
    plainStr l' :=
  fun c hc => h c (hsub hc)

theorem plainStr_append {a b : GoStr} (ha : plainStr a) (hb : plainStr b) :
    plainStr (a ++ b) := by
  intro c hc
  rcases List.mem_append.1 hc with h | h
  · exact ha c h
  · exact hb c h

/-- A plain string's display width is its rune count. -/
theorem width_plain {s : GoStr} (hp : plainStr s) :
    lipglossWidth s = (s.length : Int) := by
  induction s with
  | nil => rfl
  | cons c cs ih =>
    obtain ⟨hw, hne⟩ := hp c (List.mem_cons_self c cs)
    have ih' := ih (plainStr_mono (List.subset_cons_self c cs) hp)
    show lipglossWidthAux (c :: cs) false = _
    rw [lipglossWidthAux_cons, if_neg hne, if_neg (by simp), hw]
    unfold lipglossWidth at ih'
    rw [ih', List.length_cons]
    push_cast
    ring

/-- A plain string occupies exactly one cell per rune. -/
theorem cells_plain {s : GoStr} (hp : plainStr s) : cells s = s := by
  induction s with
  | nil => rfl
  | cons c cs ih =>
    obtain ⟨hw, hne⟩ := hp c (List.mem_cons_self c cs)
    have ih' := ih (plainStr_mono (List.subset_cons_self c cs) hp)
    show cellsAux (c :: cs) false = _
    unfold cellsAux
    rw [if_neg hne, if_neg (by simp), hw]
    show List.replicate (Int.toNat 1) c ++ cellsAux cs false = _
    rw [show Int.toNat 1 = 1 from rfl, List.replicate_one]
    exact congrArg (c :: ·) ih'

theorem containsSeq_escOpen_eq_false {r : GoStr} (h : escChar ∉ r) :
    containsSeq escOpen r = false := by
  induction r with
  | nil => rfl
  | cons c cs ih =>
    have hc : c ≠ escChar := fun he => h (he ▸ List.mem_cons_self c cs)
    show (escOpen.isPrefixOf (c :: cs) || containsSeq escOpen cs) = false
    rw [ih fun hm => h (List.mem_cons_of_mem c hm), Bool.or_false]
    show ((escChar :: ['[']).isPrefixOf (c :: cs)) = false
    rw [List.isPrefixOf_cons₂]
    simp [Ne.symm hc]

/-- For plain input the truncation loop is `take`. -/
theorem truncLoop_plain {cs : GoStr} (hp : plainStr cs) :
    ∀ (maxW w : Int) (esc : GoStr),
      truncLoop cs maxW w false esc = cs.take (maxW - w).toNat := by
  induction cs with
  | nil => intro maxW w esc; simp [truncLoop_nil]
  | cons c cs ih =>
    intro maxW w esc
    obtain ⟨hw, hne⟩ := hp c (List.mem_cons_self c cs)
    have ih' := ih (plainStr_mono (List.subset_cons_self c cs) hp)
    rw [truncLoop_cons, if_neg hne, if_neg (by simp), hw]
    by_cases hbr : w + 1 > maxW
    · rw [if_pos hbr]
      rw [show (maxW - w).toNat = 0 by omega, List.take_zero]
    · rw [if_neg hbr, ih' maxW (w + 1) esc]
      rw [show (maxW - w).toNat = (maxW - (w + 1)).toNat + 1 by omega,
        List.take_succ_cons]

/-- For plain input `TruncateToWidth` is `take`. -/
theorem TruncateToWidth_plain {s : GoStr} (hp : plainStr s) (m : Int) :
    TruncateToWidth s m = s.take m.toNat := by
  unfold TruncateToWidth
  by_cases h0 : m ≤ 0
  · rw [if_pos h0, show m.toNat = 0 by omega, List.take_zero]
  · rw [if_neg h0]
    by_cases hfit : lipglossWidth s ≤ m
    · rw [if_pos hfit]
      rw [width_plain hp] at hfit
      rw [List.take_of_length_le (by omega)]
    · rw [if_neg hfit]
      have hr : truncLoop s m 0 false [] = s.take m.toNat := by
        rw [truncLoop_plain hp m 0 [], sub_zero]
      have hplain_r : plainStr (s.take m.toNat) :=
        plainStr_mono (List.take_subset _ _) hp
      have hesc : escChar ∉ s.take m.toNat := fun hm =>
        (hplain_r escChar hm).2 rfl
      rw [hr]
      simp only [containsSeq_escOpen_eq_false hesc, Bool.false_and,
        Bool.false_eq_true, if_false]

/-- In collecting state, the extraction loop on plain input takes what fits
and pads with spaces. -/
theorem extractLoop_collect {l : GoStr} (hp : plainStr l) :
    ∀ (start maxW pos coll : Int),
      extractLoop l start maxW pos coll false true =
        l.take (maxW - coll).toNat ++
          List.replicate
            ((maxW - coll) - (l.take (maxW - coll).toNat).length).toNat ' ' := by
  induction l with
  | nil =>
    intro start maxW pos coll
    show List.replicate (maxW - coll).toNat ' ' = _
    simp
  | cons c cs ih =>
    intro start maxW pos coll
    obtain ⟨hw, hne⟩ := hp c (List.mem_cons_self c cs)
    have ih' := ih (plainStr_mono (List.subset_cons_self c cs) hp)
    unfold extractLoop
    rw [if_neg hne, if_neg (by simp), hw]
    dsimp only
    rw [Bool.true_or, if_pos rfl]
    by_cases hbr : coll + 1 > maxW
    · rw [if_pos hbr]
      rw [show (maxW - coll).toNat = 0 by omega, List.take_zero,
        List.nil_append]
      exact congrArg (fun n => List.replicate n ' ') (by simp; omega)
    · rw [if_neg hbr, ih' start maxW (pos + 1) (coll + 1)]
      rw [show (maxW - coll).toNat = (maxW - (coll + 1)).toNat + 1 by omega,
        List.take_succ_cons, List.length_cons]
      rw [List.cons_append]
      exact congrArg (c :: ·)
        (congrArg (List.take (maxW - (coll + 1)).toNat cs ++ ·)
          (congrArg (fun n => List.replicate n ' ') (by push_cast; omega)))

/-- In skipping state, the extraction loop on plain input drops up to the
start column and then collects. -/
theorem extractLoop_skip {cs : GoStr} (hp : plainStr cs) :
    ∀ (start maxW pos : Int), pos ≤ start →
      extractLoop cs start maxW pos 0 false false =
        (cs.drop (start - pos).toNat).take maxW.toNat ++
          List.replicate
            (maxW - ((cs.drop (start - pos).toNat).take maxW.toNat).length).toNat
            ' ' := by
  induction cs with
  | nil =>
    intro start maxW pos _
    show List.replicate (maxW - 0).toNat ' ' = _
    simp
  | cons c cs ih =>
    intro start maxW pos hpos
    obtain ⟨hw, hne⟩ := hp c (List.mem_cons_self c cs)
    have hcons := plainStr_mono (List.subset_cons_self c cs) hp
    have ih' := ih hcons
    unfold extractLoop
    rw [if_neg hne, if_neg (by simp), hw]
    dsimp only
    rw [Bool.false_or]
    by_cases hge : start ≤ pos
    · have hd : decide (start ≤ pos) = true := decide_eq_true hge
      rw [hd, if_pos rfl]
      rw [show (start - pos).toNat = 0 by omega, List.drop_zero]
      by_cases hbr : 0 + 1 > maxW
      · rw [if_pos hbr]
        rw [show maxW.toNat = 0 by omega, List.take_zero, List.nil_append]
        exact congrArg (fun n => List.replicate n ' ') (by simp)
      · rw [if_neg hbr, extractLoop_collect hcons start maxW (pos + 1) (0 + 1)]
        rw [show maxW.toNat = (maxW - (0 + 1)).toNat + 1 by omega,
          List.take_succ_cons, List.length_cons, List.cons_append]
        exact congrArg (c :: ·)
          (congrArg (List.take (maxW - (0 + 1)).toNat cs ++ ·)
            (congrArg (fun n => List.replicate n ' ') (by push_cast; omega)))
    · have hd : decide (start ≤ pos) = false := decide_eq_false hge
      rw [hd, if_neg (by simp)]
      rw [ih' start maxW (pos + 1) (by omega)]
      rw [show (start - pos).toNat = (start - (pos + 1)).toNat + 1 by omega,
        List.drop_succ_cons]

/-- For plain input within range, `extractFromPosition` is drop-then-take,
space-padded to `maxWidth`. -/
theorem extractFromPosition_plain {s : GoStr} (hp : plainStr s)
    (start maxW : Int) (h0 : 0 ≤ start) (hm : 0 < maxW)
    (hin : start < lipglossWidth s) :
    extractFromPosition s start maxW =
      (s.drop start.toNat).take maxW.toNat ++
        List.replicate
          (maxW - ((s.drop start.toNat).take maxW.toNat).length).toNat ' ' := by
  unfold extractFromPosition
  rw [if_neg (by omega), if_neg (by omega)]
  rw [extractLoop_skip hp start maxW 0 h0, sub_zero]

/-- `FitToWidth` is the identity on strings that already have the target
width. -/
theorem FitToWidth_of_width_eq {s : GoStr} {w : Int}
    (hw : lipglossWidth s = w) (h0 : 0 < w) : FitToWidth s w = s := by
  rw [FitToWidth_eq, if_neg (by omega), if_pos hw]

theorem splitOnNl_no_nl (c : GoStr) (h : '\n' ∉ c) : splitOnNl c = [c] := by
  induction c with
  | nil => rfl
  | cons a cs ih =>
    have ha : a ≠ '\n' := fun he => h (he ▸ List.mem_cons_self a cs)
    unfold splitOnNl
    rw [ih fun hm => h (List.mem_cons_of_mem a hm)]
    dsimp only
    rw [if_neg ha]
    rfl

/-! ## Claim theorems -/

/-- C3. For every box list and `availableSpace ≥ 0` with at least one
weighted box (`totalWeight > 0`) and no negative size in the result, the
sizes returned by `calcSizes` sum to exactly `availableSpace`; two weighted
children of weights 1 and 2 get 30/60 of a 90-wide container and 31/60 of
a 91-wide one (one of the two splits the claim allows). -/
theorem thmC3_calcSizes_tiles :
    (∀ (boxes : List Box) (availableSpace : Int), 0 ≤ availableSpace →
      0 < weightSum boxes →
      (∀ s ∈ calcSizes boxes availableSpace, 0 ≤ s) →
      (calcSizes boxes availableSpace).sum = availableSpace) ∧
    calcSizes
      [Box.mk .row [] "" 0 1, Box.mk .row [] "" 0 2] 90 = [30, 60] ∧
    (calcSizes
        [Box.mk .row [] "" 0 1, Box.mk .row [] "" 0 2] 91 = [30, 61] ∨
      calcSizes
        [Box.mk .row [] "" 0 1, Box.mk .row [] "" 0 2] 91 = [31, 60]) := by
  refine ⟨fun boxes avail h0 hw _ => calcSizes_sum_eq boxes avail h0 hw, ?_, ?_⟩
  · rfl
  · right; rfl

/-- C3, witness: the quantified part applied to the two weighted children
in a 90-wide container. -/
theorem witC3_calcSizes_tiles :
    (calcSizes [Box.mk .row [] "" 0 1, Box.mk .row [] "" 0 2] 90).sum = 90 :=
  thmC3_calcSizes_tiles.1 [Box.mk .row [] "" 0 1, Box.mk .row [] "" 0 2] 90
    (by decide) (by decide) (by decide)

/-- C4, counterexample. For two boxes of weight 5 and 13 units of space,
the first box receives `calcSizes` size 8, which exceeds
`floor(remaining * weight / totalWeight) + 1 = floor(13*5/10) + 1 = 7`:
the extra pool is handed out `min(weight, poolLeft)` at a time, so a single
child can absorb up to its whole weight — here 3 units — not one. -/
theorem cexC4_extra_pool :
    calcSizes [Box.mk .row [] "" 0 5, Box.mk .row [] "" 0 5] 13 = [8, 5] ∧
    Int.tdiv (13 * 5) 10 = 6 ∧ ¬((8 : Int) ≤ Int.tdiv (13 * 5) 10 + 1) := by
  refine ⟨rfl, rfl, by decide⟩

/-- C4 (amended). In the weighted pass each dynamically sized child at
index `i` receives `(remaining / totalWeight) * weight` (integer division
of the remaining space first), plus `min(weight, poolLeft)` from the
`extra = remaining % totalWeight` pool, where `poolLeft` is the pool minus
the effective weights of earlier weighted children (floored at 0) — so a
child can absorb up to its weight in extra units, and the pool drains in
iteration order. -/
theorem thmC4_extra_pool (boxes : List Box) (avail : Int) (i : Nat) (b : Box)
    (hb : boxes[i]? = some b) (hbw : b.size ≤ 0)
    (hw : 0 < weightSum boxes)
    (hr : 0 < avail - reservedSpace boxes avail) :
    (calcSizes boxes avail)[i]? =
      some (Int.tdiv (avail - reservedSpace boxes avail) (weightSum boxes) *
          effWeight b +
        min (effWeight b)
          (max 0 (Int.tmod (avail - reservedSpace boxes avail) (weightSum boxes) -
            prefixWeightSum boxes i))) := by
  cases boxes with
  | nil => simp at hb
  | cons b0 rest =>
    have htw := calcPass1_totalWeight (b0 :: rest) avail 0
    have hres : reservedSpace (b0 :: rest) avail =
        (calcPass1 (b0 :: rest) avail 0).2.1 := rfl
    rw [hres] at hr ⊢
    rw [← htw] at hw ⊢
    rw [calcSizes_cons, if_pos ⟨hw, hr⟩]
    have hmod0 : 0 ≤ goMod (avail - (calcPass1 (b0 :: rest) avail 0).2.1)
        (calcPass1 (b0 :: rest) avail 0).2.2 :=
      Int.tmod_nonneg _ (by omega)
    rw [calcPass2_get (b0 :: rest) _ _ _ hmod0
      (calcPass1_length (b0 :: rest) avail 0) i b hb hbw]
    rfl

/-- C10. A window name that occurs only under children whose computed
primary-axis size is `≤ 0` is entirely absent from the map returned by
`ArrangeWindows`: such children are skipped rather than arranged, so a
window name present in the tree may be missing from the result. -/
theorem thmC10_zero_size_children_skipped (root : Box) (x0 y0 width height : Int)
    (name : String) (hleaf : root.window = "")
    (hmiss : ∀ p ∈ root.children.zip
        (calcSizes root.children
          (if root.direction = Direction.column then width else height)),
      0 < p.2 → name ∉ treeWindows p.1) :
    ArrangeWindows root x0 y0 width height name = none := by
  cases root with
  | mk d children window sz wt =>
    simp only [Box.window] at hleaf
    simp only [Box.children, Box.direction] at hmiss
    have hw : ¬window ≠ "" := fun hne => hne hleaf
    cases children with
    | nil =>
      rw [ArrangeWindows_mk_nil, if_neg hw]
      rfl
    | cons c cs =>
      rw [ArrangeWindows_mk_cons, if_neg hw]
      exact (arrange_none_aux (sizeOf (c :: cs))).2 (c :: cs)
        (fun x hx => le_of_lt (List.sizeOf_lt_of_mem hx))
        _ d x0 y0 width height 0 NameMap.empty name rfl hmiss

/-- C10, witness: a column whose first child has fixed size 5 in a 5-unit
wide container leaves size 0 for the weighted leaf `"b"`, so `"b"` is in
the tree but absent from the arrangement. -/
theorem witC10_zero_size_children_skipped :
    ArrangeWindows
        (Box.mk .column [Box.mk .row [] "a" 5 0, Box.mk .row [] "b" 0 1] "" 0 0)
        0 0 5 1 "b" = none ∧
    "b" ∈ treeWindows
        (Box.mk .column [Box.mk .row [] "a" 5 0, Box.mk .row [] "b" 0 1] "" 0 0) :=
  ⟨thmC10_zero_size_children_skipped
      (Box.mk .column [Box.mk .row [] "a" 5 0, Box.mk .row [] "b" 0 1] "" 0 0)
      0 0 5 1 "b" rfl (by decide),
    by decide⟩

/-- C4, witness for the amended closed form: first of two weight-5 boxes in
13 units of space gets `1 * 5 + min 5 (max 0 (3 - 0)) = 8`. -/
theorem witC4_extra_pool :
    (calcSizes [Box.mk .row [] "" 0 5, Box.mk .row [] "" 0 5] 13)[0]? =
      some (Int.tdiv
          (13 - reservedSpace [Box.mk .row [] "" 0 5, Box.mk .row [] "" 0 5] 13)
          (weightSum [Box.mk .row [] "" 0 5, Box.mk .row [] "" 0 5]) *
          effWeight (Box.mk .row [] "" 0 5) +
        min (effWeight (Box.mk .row [] "" 0 5))
          (max 0 (Int.tmod
              (13 - reservedSpace [Box.mk .row [] "" 0 5, Box.mk .row [] "" 0 5] 13)
              (weightSum [Box.mk .row [] "" 0 5, Box.mk .row [] "" 0 5]) -
            prefixWeightSum [Box.mk .row [] "" 0 5, Box.mk .row [] "" 0 5] 0))) :=
  thmC4_extra_pool [Box.mk .row [] "" 0 5, Box.mk .row [] "" 0 5] 13 0
    (Box.mk .row [] "" 0 5) rfl (by decide) (by decide) (by decide)

/-- C1. The claim "the display width of `FitToWidth(s, w)` equals `w`
exactly ... for all inputs, including strings containing double-width code
points" fails on the code: truncating `"日日"` (two double-width runes,
width 4) to width 3 stops one cell short of the target and nothing pads the
shortfall, so the result `"日"` has width 2, not 3. -/
theorem thmC1_fitToWidth_shortfall :
    FitToWidth ['日', '日'] 3 = ['日'] ∧
    lipglossWidth (FitToWidth ['日', '日'] 3) = 2 := by
  constructor
  · rfl
  · rfl

/-- C2. The screen-buffer invariant "each line has display width exactly
equal to the Screen's width" is broken by the same truncation shortfall:
`SetLine` on a width-3 screen stores a line of width 2 when the content is
`"日日"`. -/
theorem thmC2_screen_line_shortfall :
    ((NewScreen 3 1).setLine 0 ['日', '日']).width = 3 ∧
    ((NewScreen 3 1).setLine 0 ['日', '日']).lines.map lipglossWidth = [2] := by
  constructor
  · rfl
  · rfl

/-- C5, counterexample. `TruncateWithEllipsis` returns the input unchanged
whenever it already fits (`width(s) <= maxWidth`), so `maxWidth == 1` does
not yield an ellipsis for `"a"`; and for `width(s) > w > 1` the result's
width can be `w - 1`, not `w`, when the truncation stops a cell short at a
double-width rune (`"日日"` at `w = 2` gives the bare ellipsis, width 1). -/
theorem cexC5_truncateWithEllipsis :
    TruncateWithEllipsis ['a'] 1 = ['a'] ∧ (['a'] : GoStr) ≠ ['…'] ∧
    TruncateWithEllipsis ['日', '日'] 2 = ['…'] ∧
    lipglossWidth (TruncateWithEllipsis ['日', '日'] 2) = 1 := by
  refine ⟨rfl, by decide, rfl, rfl⟩

/-- C5 (amended). `TruncateWithEllipsis(s, maxWidth)` returns the empty
string when `maxWidth <= 0`, returns `s` unchanged when `width(s) <=
maxWidth`, returns a single ellipsis glyph when `maxWidth == 1` and `s` is
too wide, and otherwise returns `TruncateToWidth(s, maxWidth-1) + "…"`; in
the last case the result ends in the ellipsis glyph and has display width
exactly `w` or `w - 1` (one less exactly when the truncation stops one cell
short at a double-width code point). -/
theorem thmC5_truncateWithEllipsis (s : GoStr) (w : Int) :
    (w ≤ 0 → TruncateWithEllipsis s w = []) ∧
    (0 < w → lipglossWidth s ≤ w → TruncateWithEllipsis s w = s) ∧
    (w = 1 → 1 < lipglossWidth s → TruncateWithEllipsis s w = ['…']) ∧
    (1 < w → w < lipglossWidth s →
      TruncateWithEllipsis s w = TruncateToWidth s (w - 1) ++ ['…'] ∧
      (TruncateWithEllipsis s w).getLast? = some '…' ∧
      (lipglossWidth (TruncateWithEllipsis s w) = w ∨
        lipglossWidth (TruncateWithEllipsis s w) = w - 1)) := by
  refine ⟨?_, ?_, ?_, ?_⟩
  · intro h
    rw [TruncateWithEllipsis_eq, if_pos h]
  · intro h0 hfit
    rw [TruncateWithEllipsis_eq, if_neg (by omega), if_pos hfit]
  · intro h1 hwide
    rw [TruncateWithEllipsis_eq, if_neg (by omega), if_neg (by omega), if_pos (by omega)]
  · intro h1 hwide
    have heq : TruncateWithEllipsis s w = TruncateToWidth s (w - 1) ++ ['…'] := by
      rw [TruncateWithEllipsis_eq, if_neg (by omega), if_neg (by omega),
        if_neg (by omega)]
    refine ⟨heq, ?_, ?_⟩
    · rw [heq]
      simp
    · rw [heq]
      have hstate := (TruncateToWidth_width_eq_loop s (w - 1) (by omega)
        (by omega)).2
      have hle := TruncateToWidth_width_le s (w - 1) (by omega)
      have hge := TruncateToWidth_width_ge s (w - 1) (by omega)
      have hdots : lipglossWidthAux ['…'] false = 1 := by decide
      show lipglossWidthAux _ false = w ∨ lipglossWidthAux _ false = w - 1
      rw [lipglossWidthAux_append, hstate, hdots]
      unfold lipglossWidth at hle hge
      omega

/-- C5, witness for the amended theorem at `s = "abcde"`, `w = 3`. -/
theorem witC5_truncateWithEllipsis :
    TruncateWithEllipsis ['a', 'b', 'c', 'd', 'e'] 3 =
      TruncateToWidth ['a', 'b', 'c', 'd', 'e'] (3 - 1) ++ ['…'] ∧
    (TruncateWithEllipsis ['a', 'b', 'c', 'd', 'e'] 3).getLast? = some '…' ∧
    (lipglossWidth (TruncateWithEllipsis ['a', 'b', 'c', 'd', 'e'] 3) = 3 ∨
      lipglossWidth (TruncateWithEllipsis ['a', 'b', 'c', 'd', 'e'] 3) = 3 - 1) :=
  (thmC5_truncateWithEllipsis ['a', 'b', 'c', 'd', 'e'] 3).2.2.2
    (by decide) (by decide)

/-- C6, counterexample. When a double-width rune straddles the block's
left edge, `DrawBlock` does not leave columns 0–9 visually unchanged: with
`日` occupying columns 9–10 of a 30-wide row, the prefix truncation stops
at column 9 and the drawn block slides left, so column 9 now shows the
block's first rune instead of the wide glyph. -/
theorem cexC6_drawBlock_wide_straddle :
    lipglossWidth (List.replicate 9 'a' ++ '日' :: List.replicate 19 'b') = 30 ∧
    lipglossWidth ['X', 'X', 'X', 'X', 'X'] = 5 ∧
    (cells (((Screen.mk 30 1
          [List.replicate 9 'a' ++ '日' :: List.replicate 19 'b']).drawBlock 10 0
          ['X', 'X', 'X', 'X', 'X']).lines.getD 0 [])).take 10 ≠
      (cells (List.replicate 9 'a' ++ '日' :: List.replicate 19 'b')).take 10 := by
  refine ⟨rfl, rfl, by decide⟩

/-- C6 (amended). Drawing a width-5 block at `x = 10` via `DrawBlock` onto
a pre-populated 30-wide screen row whose runes are all single-width and
escape-free (so no glyph straddles the block's edges) leaves visual columns
0–9 and 15–29 unchanged while columns 10–14 become the block's content. -/
theorem thmC6_drawBlock_preserves (e c : GoStr) (he : plainStr e)
    (hc : plainStr c) (hnl : '\n' ∉ c)
    (hwe : lipglossWidth e = 30) (hwc : lipglossWidth c = 5) :
    (cells (((Screen.mk 30 1 [e]).drawBlock 10 0 c).lines.getD 0 [])).take 10 =
      (cells e).take 10 ∧
    (cells (((Screen.mk 30 1 [e]).drawBlock 10 0 c).lines.getD 0 [])).drop 15 =
      (cells e).drop 15 ∧
    ((cells (((Screen.mk 30 1 [e]).drawBlock 10 0 c).lines.getD 0
        [])).drop 10).take 5 = cells c := by
  have hlene : e.length = 30 := by
    have h := width_plain he
    rw [hwe] at h
    exact_mod_cast h.symm
  have hlenc : c.length = 5 := by
    have h := width_plain hc
    rw [hwc] at h
    exact_mod_cast h.symm
  have hdb : ((Screen.mk 30 1 [e]).drawBlock 10 0 c).lines.getD 0 [] =
      composeLine e 10 c 30 := by
    unfold Screen.drawBlock
    rw [splitOnNl_no_nl c hnl]
    rfl
  have hplain2 : plainStr (e.take 10 ++ (c ++ e.drop 15)) :=
    plainStr_append (plainStr_mono (List.take_subset _ _) he)
      (plainStr_append hc (plainStr_mono (List.drop_subset _ _) he))
  have hafter : extractFromPosition e 15 15 = e.drop 15 := by
    rw [extractFromPosition_plain he 15 15 (by norm_num) (by norm_num)
      (by rw [hwe]; norm_num)]
    rw [show (15 : Int).toNat = 15 from rfl]
    have hld : (e.drop 15).length = 15 := by
      rw [List.length_drop]
      omega
    rw [List.take_of_length_le (le_of_eq hld), hld]
    simp
  have hcomp : composeLine e 10 c 30 = e.take 10 ++ (c ++ e.drop 15) := by
    unfold composeLine
    rw [hwc, if_neg (by norm_num)]
    dsimp only
    rw [if_pos (by norm_num : (0 : Int) < 10), hwe,
      if_pos (by norm_num : (10 : Int) ≤ 30),
      if_pos (by norm_num : (10 : Int) + 5 < 30),
      show (10 : Int) + 5 = 15 by norm_num,
      show (30 : Int) - 15 = 15 by norm_num,
      TruncateToWidth_plain he 10, hafter]
    have hw2 : lipglossWidth (e.take (10 : Int).toNat ++ (c ++ e.drop 15)) = 30 := by
      rw [width_plain (plainStr_append (plainStr_mono (List.take_subset _ _) he)
        (plainStr_append hc (plainStr_mono (List.drop_subset _ _) he)))]
      rw [List.length_append, List.length_append, List.length_take,
        List.length_drop, hlene, hlenc]
      norm_num
    rw [List.append_assoc]
    exact FitToWidth_of_width_eq (by rw [← List.append_assoc] at hw2 ⊢; exact hw2)
      (by norm_num)
  have hlt : (e.take 10).length = 10 := by
    rw [List.length_take]
    omega
  refine ⟨?_, ?_, ?_⟩
  · rw [hdb, hcomp, cells_plain hplain2, cells_plain he,
      List.take_append_of_le_length (le_of_eq hlt.symm),
      List.take_of_length_le (le_of_eq hlt)]
  · rw [hdb, hcomp, cells_plain hplain2, cells_plain he,
      show (15 : Nat) = (e.take 10).length + 5 by omega,
      List.drop_append,
      show (5 : Nat) = c.length + 0 by omega,
      List.drop_append, List.drop_zero]
  · rw [hdb, hcomp, cells_plain hplain2, cells_plain hc]
    nth_rewrite 1 [show (10 : Nat) = (e.take 10).length + 0 by omega]
    rw [List.drop_append, List.drop_zero,
      List.take_append_of_le_length (by omega),
      List.take_of_length_le (by omega)]

/-- C6, witness for the amended theorem: a concrete plain 30-wide row of
letters and a plain 5-wide block. -/
theorem witC6_drawBlock_preserves :
    (cells (((Screen.mk 30 1 [List.replicate 30 'r']).drawBlock 10 0
        ['X', 'X', 'X', 'X', 'X']).lines.getD 0 [])).take 10 =
      (cells (List.replicate 30 'r')).take 10 ∧
    (cells (((Screen.mk 30 1 [List.replicate 30 'r']).drawBlock 10 0
        ['X', 'X', 'X', 'X', 'X']).lines.getD 0 [])).drop 15 =
      (cells (List.replicate 30 'r')).drop 15 ∧
    ((cells (((Screen.mk 30 1 [List.replicate 30 'r']).drawBlock 10 0
        ['X', 'X', 'X', 'X', 'X']).lines.getD 0 [])).drop 10).take 5 =
      cells ['X', 'X', 'X', 'X', 'X'] :=
  thmC6_drawBlock_preserves (List.replicate 30 'r') ['X', 'X', 'X', 'X', 'X']
    (by decide) (by decide) (by decide) (by decide) (by decide)

/-- C7, counterexample. `Panel.Render` has no borderless fallback for
degenerate bordered dimensions: a single-border panel of width 1 and height
3 renders `"\n"` (empty top and bottom borders, no content rows), not the
borderless path's three fitted content lines `"a\nb\nc"`. -/
theorem cexC7_panel_no_fallback :
    (Panel.mk [] ('a' :: '\n' :: 'b' :: '\n' :: 'c' :: []) 1 3 .single
        false).render = ['\n'] ∧
    (Panel.mk [] ('a' :: '\n' :: 'b' :: '\n' :: 'c' :: []) 1 3 .single
        false).renderContent 1 3 = 'a' :: '\n' :: 'b' :: '\n' :: 'c' :: [] ∧
    (['\n'] : GoStr) ≠ 'a' :: '\n' :: 'b' :: '\n' :: 'c' :: [] := by
  refine ⟨rfl, rfl, by decide⟩

/-- C7 (amended). Both renderers return the empty string for non-positive
dimensions, and `Frame.Render` falls back to the borderless path when a
border is requested but `width < 2` or `height < 2`; `Panel.Render` has no
such fallback and renders degenerate border lines instead. -/
theorem thmC7_degenerate_dimensions :
    (∀ p : Panel, p.width ≤ 0 ∨ p.height ≤ 0 → p.render = []) ∧
    (∀ f : Frame, f.width ≤ 0 ∨ f.height ≤ 0 → f.render = []) ∧
    (∀ f : Frame, f.border ≠ .none → ¬(f.width ≤ 0 ∨ f.height ≤ 0) →
      f.width < 2 ∨ f.height < 2 → f.render = f.renderNoBorder) := by
  refine ⟨?_, ?_, ?_⟩
  · intro p h
    unfold Panel.render
    rw [if_pos h]
  · intro f h
    unfold Frame.render
    rw [if_pos h]
  · intro f hb h0 hlt
    unfold Frame.render
    rw [if_neg h0, if_neg hb, if_pos hlt]

/-- C7, witness: a 0-width panel and frame render empty, and a width-1
single-border frame of height 3 renders exactly its borderless path. -/
theorem witC7_degenerate_dimensions :
    (Panel.mk [] ['a'] 0 3 .single false).render = [] ∧
    (Frame.mk 0 3 [] .single false [['a']]).render = [] ∧
    (Frame.mk 1 3 [] .single false [['a'], ['b'], ['c']]).render =
      (Frame.mk 1 3 [] .single false [['a'], ['b'], ['c']]).renderNoBorder :=
  ⟨thmC7_degenerate_dimensions.1 (Panel.mk [] ['a'] 0 3 .single false)
      (by decide),
    thmC7_degenerate_dimensions.2.1 (Frame.mk 0 3 [] .single false [['a']])
      (by decide),
    thmC7_degenerate_dimensions.2.2 (Frame.mk 1 3 [] .single false
        [['a'], ['b'], ['c']])
      (by decide) (by decide) (by decide)⟩

/-- C8, counterexample. In a 20-wide single-border panel the content area
is `20 - 2 = 18` columns, not 16: stripping the border glyphs from the
first content row of the rendered 20×5 panel leaves `"hello"` padded to
display width 18. -/
theorem cexC8_panel_content_width :
    lipglossWidth
        (((splitOnNl
            (Panel.mk [] ['h', 'e', 'l', 'l', 'o'] 20 5 .single
              false).render).getD 1 []).drop 1).dropLast = 18 ∧
    ((18 : Int) = 16 → False) := by
  refine ⟨rfl, by decide⟩

/-- C8 (amended). A `Panel` of width 20, height 5, single border, empty
title and content `"hello"` renders five rows; stripping the leading and
trailing border glyph from each content row yields `"hello"` padded with
spaces to display width 18 (20 minus the two side borders), followed by two
blank rows of 18 spaces filling the remaining content rows. -/
theorem thmC8_panel_round_trip :
    (splitOnNl
        (Panel.mk [] ['h', 'e', 'l', 'l', 'o'] 20 5 .single false).render).length
      = 5 ∧
    (((splitOnNl
        (Panel.mk [] ['h', 'e', 'l', 'l', 'o'] 20 5 .single
          false).render).getD 1 []).drop 1).dropLast =
      ['h', 'e', 'l', 'l', 'o'] ++ List.replicate 13 ' ' ∧
    (((splitOnNl
        (Panel.mk [] ['h', 'e', 'l', 'l', 'o'] 20 5 .single
          false).render).getD 2 []).drop 1).dropLast = List.replicate 18 ' ' ∧
    (((splitOnNl
        (Panel.mk [] ['h', 'e', 'l', 'l', 'o'] 20 5 .single
          false).render).getD 3 []).drop 1).dropLast = List.replicate 18 ' ' := by
  refine ⟨rfl, by decide, by decide, by decide⟩

/-- C9, counterexample. `FitToWidth` is not idempotent: on `"日日"` at
width 3 the first application truncates to `"日"` (width 2, one cell short)
and the second application pads that with a space. -/
theorem cexC9_fitToWidth_not_idempotent :
    FitToWidth (FitToWidth ['日', '日'] 3) 3 ≠ FitToWidth ['日', '日'] 3 := by
  decide

/-- C9 (amended). `FitToWidth` is idempotent whenever the first application
actually achieves the requested width — in particular for `w ≤ 0`, where
both applications return the empty string. (The counterexample shows the
remaining case really fails: when truncation stops one cell short at a
double-width rune, the second application appends a padding space.) -/
theorem thmC9_fitToWidth_idempotent (s : GoStr) (w : Int)
    (h : w ≤ 0 ∨ lipglossWidth (FitToWidth s w) = w) :
    FitToWidth (FitToWidth s w) w = FitToWidth s w := by
  by_cases h0 : w ≤ 0
  · have h1 : FitToWidth s w = [] := by rw [FitToWidth_eq, if_pos h0]
    rw [h1, FitToWidth_eq, if_pos h0]
  · have h2 : lipglossWidth (FitToWidth s w) = w := h.resolve_left h0
    rw [FitToWidth_eq (FitToWidth s w) w, if_neg h0, if_pos h2]

/-- C9, witness for the amended theorem at `s = "hi"`, `w = 2`. -/
theorem witC9_fitToWidth_idempotent :
    FitToWidth (FitToWidth ['h', 'i'] 2) 2 = FitToWidth ['h', 'i'] 2 :=
  thmC9_fitToWidth_idempotent ['h', 'i'] 2 (by decide)

end LazyObsidian
